import Mathlib

/-!
# Oj: the option layer and error reporting of `ext/oj/oj.c`

A shallow embedding of the glue code of the Oj JSON extension: the
process-wide default options (`oj_default_options`), the functions that read
and write them (`get_def_opts`, `set_def_opts`), the per-call overlay
(`parse_options`), the entry point `load`, the JSON-gem imitation
(`mimic_generate_core` and its two callers) and the position computation of
`_oj_raise_error`.

Conventions of the embedding.

* A Ruby `VALUE` is a value of the inductive type `VALUE`; the interned
  symbols the C file keeps in static variables (`indent_sym`, ...) are the
  corresponding `VALUE.Symbol` constants.
* A C function that can call `rb_raise` returns an `Exec`: either `ret` with
  its result or `raise` with the exception; the memory it writes through
  pointers or globals (`copts`, `oj_default_options`) is returned next to the
  `Exec`, so that the writes made before a raise stay visible.
* Code that lives outside `oj.c` (the Ruby runtime's encoding table, the
  parser `oj_parse`, the writer `oj_write_obj_to_str`, the operating system)
  is a parameter.
* The `int` counters of `_oj_raise_error` are integers kept in the range of
  `int`: an increment past `INT_MAX` wraps around to `INT_MIN`, which is what
  the two's-complement machines the extension is built for do (the C standard
  leaves signed overflow undefined).
-/

namespace Oj

/-- One `char` of a C buffer, as an unsigned byte. -/
abbrev Byte := Fin 256

/-- The byte `'\n'`. -/
def NL : Byte := 10

/-- The index of an encoding in the Ruby runtime's encoding table; an
`rb_encoding *` is an `Option rb_encoding`, `none` being the null pointer. -/
abbrev rb_encoding := Nat

/-- What `load_with_opts` can observe of an object that is neither a String
nor one of the other built-in values: whether its class is `StringIO` (and
what `string` returns), whether it responds to `fileno` (and what that
returns: `none` for `nil`), whether it responds to `read` (and the bytes of
the String it returns). -/
structure RObject where
  is_stringio : Bool
  string : List Byte
  fileno : Option (Option Int)
  read : Option (List Byte)
  deriving DecidableEq, Repr

/-- Ruby values, as far as `oj.c` tells them apart.  `Integer n` is a Fixnum
when `n` fits a tagged word and a Bignum otherwise; a `String` carries its
bytes and the index of its encoding; a `Hash` carries whether its class is
exactly `Hash` (and not a subclass), its default value and its table in
insertion order. -/
inductive VALUE where
  | Qnil
  | Qtrue
  | Qfalse
  | Integer (n : Int)
  | Symbol (name : String)
  | String (bytes : List Byte) (enc : rb_encoding)
  | Encoding (enc : rb_encoding)
  | Array (elts : List VALUE)
  | Hash (klass_is_Hash : Bool) (ifnone : VALUE) (tbl : List (VALUE × VALUE))
  | Object (o : RObject)

/-- The exceptions raised in `oj.c`, with the arguments given to `rb_raise`. -/
inductive Raise where
  | rb_eArgError (msg : String)
  | rb_eTypeError
  | rb_eRangeError
  | rb_eIOError (msg : String)
  | rb_eNoMemError (msg : String)
  | rb_eSyntaxError (msg : String) (xline col : Int) (file : String) (line : Int)
  | rb_eNotImpError (msg : String)
  | rb_eLocalJumpError
  deriving DecidableEq, Repr

/-- The outcome of a C function that may raise. -/
inductive Exec (α : Type) where
  | ret (a : α)
  | raise (e : Raise)
  deriving DecidableEq, Repr

/-- Result of a block that ran to its end. -/
def Exec.done {σ : Type} (s : σ) : Exec Unit × σ := (Exec.ret (), s)

/-- Sequencing of two blocks of C code over the memory `σ`: the second runs
only when the first did not raise; a raise keeps the memory as it was at the
raise. -/
def Exec.andThen {σ α : Type} (r : Exec Unit × σ) (f : σ → Exec α × σ) : Exec α × σ :=
  match r with
  | (Exec.ret _, s) => f s
  | (Exec.raise e, s) => (Exec.raise e, s)

/-! ## The Ruby C API, as used by `oj.c` -/

/-- The values of `rb_type` that occur. -/
inductive RType where
  | T_NIL | T_TRUE | T_FALSE | T_FIXNUM | T_BIGNUM | T_SYMBOL | T_STRING
  | T_DATA | T_ARRAY | T_HASH | T_OBJECT
  deriving DecidableEq, Repr

/-- The classes `rb_obj_class` can return; `other` stands for every class
`oj.c` does not compare with (among them the subclasses of `Hash`). -/
inductive RClass where
  | rb_cNilClass | rb_cTrueClass | rb_cFalseClass | rb_cFixnum | rb_cBignum
  | rb_cSymbol | rb_cString | rb_cEncoding | rb_cArray | rb_cHash
  | oj_stringio_class | other
  deriving DecidableEq, Repr

/-- Largest Fixnum of a 64-bit Ruby. -/
def FIXNUM_MAX : Int := 2 ^ 62 - 1

/-- Smallest Fixnum of a 64-bit Ruby. -/
def FIXNUM_MIN : Int := -(2 ^ 62)

/-- Largest `int`. -/
def INT_MAX : Int := 2 ^ 31 - 1

/-- Smallest `int`. -/
def INT_MIN : Int := -(2 ^ 31)

/-- Whether an integer is represented as a Fixnum. -/
def FIXABLE (n : Int) : Bool := decide (FIXNUM_MIN ≤ n) && decide (n ≤ FIXNUM_MAX)

/-- The `rb_type` of a value. -/
def rb_type : VALUE → RType
  | VALUE.Qnil => RType.T_NIL
  | VALUE.Qtrue => RType.T_TRUE
  | VALUE.Qfalse => RType.T_FALSE
  | VALUE.Integer n => if FIXABLE n then RType.T_FIXNUM else RType.T_BIGNUM
  | VALUE.Symbol _ => RType.T_SYMBOL
  | VALUE.String _ _ => RType.T_STRING
  | VALUE.Encoding _ => RType.T_DATA
  | VALUE.Array _ => RType.T_ARRAY
  | VALUE.Hash _ _ _ => RType.T_HASH
  | VALUE.Object _ => RType.T_OBJECT

/-- The `rb_obj_class` of a value. -/
def rb_obj_class : VALUE → RClass
  | VALUE.Qnil => RClass.rb_cNilClass
  | VALUE.Qtrue => RClass.rb_cTrueClass
  | VALUE.Qfalse => RClass.rb_cFalseClass
  | VALUE.Integer n => if FIXABLE n then RClass.rb_cFixnum else RClass.rb_cBignum
  | VALUE.Symbol _ => RClass.rb_cSymbol
  | VALUE.String _ _ => RClass.rb_cString
  | VALUE.Encoding _ => RClass.rb_cEncoding
  | VALUE.Array _ => RClass.rb_cArray
  | VALUE.Hash true _ _ => RClass.rb_cHash
  | VALUE.Hash false _ _ => RClass.other
  | VALUE.Object o => if o.is_stringio then RClass.oj_stringio_class else RClass.other

/-- Whether a value is `nil`, the test `Qnil == v`. -/
def VALUE.is_nil : VALUE → Bool
  | VALUE.Qnil => true
  | _ => false

/-- Whether a table key is the symbol `key`.  Every lookup of `oj.c` is by
one of its interned symbols, and a symbol equals only itself. -/
def same_symbol : VALUE → VALUE → Bool
  | VALUE.Symbol a, VALUE.Symbol b => a == b
  | _, _ => false

/-- The first binding of a symbol in a hash table. -/
def st_lookup : List (VALUE × VALUE) → VALUE → Option VALUE
  | [], _ => none
  | (k, v) :: rest, key => if same_symbol k key then some v else st_lookup rest key

/-- Replace the binding of a symbol in a table, or append a new one. -/
def st_insert : List (VALUE × VALUE) → VALUE → VALUE → List (VALUE × VALUE)
  | [], key, val => [(key, val)]
  | (k, v) :: rest, key, val =>
    if same_symbol k key then (k, val) :: rest else (k, v) :: st_insert rest key val

/-- The table of a Hash (empty for anything else). -/
def VALUE.tbl : VALUE → List (VALUE × VALUE)
  | VALUE.Hash _ _ t => t
  | _ => []

/-- `rb_hash_new()`: an empty Hash whose default is `nil`. -/
def rb_hash_new : VALUE := VALUE.Hash true VALUE.Qnil []

/-- `rb_hash_lookup(hash, key)`: the value bound to `key`, `nil` when there
is none; the default of the hash is not consulted. -/
def rb_hash_lookup (hash key : VALUE) : VALUE :=
  (st_lookup hash.tbl key).getD VALUE.Qnil

/-- `rb_hash_aref(hash, key)`, that is `hash[key]`: the value bound to `key`,
the default value of the hash when there is none. -/
def rb_hash_aref (hash key : VALUE) : VALUE :=
  match hash with
  | VALUE.Hash _ ifnone t => (st_lookup t key).getD ifnone
  | _ => VALUE.Qnil

/-- `rb_hash_aset(hash, key, val)`, that is `hash[key] = val`. -/
def rb_hash_aset (hash key val : VALUE) : VALUE :=
  match hash with
  | VALUE.Hash c ifnone t => VALUE.Hash c ifnone (st_insert t key val)
  | v => v

/-- The call `rb_funcall(opts, rb_intern("has_key?"), 1, key)` compared with
`Qtrue`. -/
def has_key (hash key : VALUE) : Bool :=
  (st_lookup hash.tbl key).isSome

/-- The C string a `char *` points at: the bytes before the first NUL. -/
def cstr (bytes : List Byte) : List Byte :=
  bytes.takeWhile (fun b => b != 0)

/-- `strlen`. -/
def strlen (bytes : List Byte) : Nat :=
  (cstr bytes).length

/-- `rb_id2name(SYM2ID(sym))`. -/
def rb_id2name : VALUE → String
  | VALUE.Symbol s => s
  | _ => ""

/-- `NUM2INT` and `FIX2INT` on an integer of a 64-bit Ruby: the value when it
fits an `int`, a RangeError otherwise. -/
def NUM2INT (n : Int) : Exec Int :=
  if INT_MIN ≤ n ∧ n ≤ INT_MAX then Exec.ret n else Exec.raise Raise.rb_eRangeError

/-! ## The interned symbols -/

def ascii_only_sym : VALUE := VALUE.Symbol "ascii_only"
def auto_define_sym : VALUE := VALUE.Symbol "auto_define"
def circular_sym : VALUE := VALUE.Symbol "circular"
def compat_sym : VALUE := VALUE.Symbol "compat"
def encoding_sym : VALUE := VALUE.Symbol "encoding"
def indent_sym : VALUE := VALUE.Symbol "indent"
def mode_sym : VALUE := VALUE.Symbol "mode"
def null_sym : VALUE := VALUE.Symbol "null"
def object_sym : VALUE := VALUE.Symbol "object"
def strict_sym : VALUE := VALUE.Symbol "strict"
def symbol_keys_sym : VALUE := VALUE.Symbol "symbol_keys"
def array_nl_sym : VALUE := VALUE.Symbol "array_nl"
def object_nl_sym : VALUE := VALUE.Symbol "object_nl"
def space_before_sym : VALUE := VALUE.Symbol "space_before"
def space_sym : VALUE := VALUE.Symbol "space"

/-! ## Options -/

/-- Modelled from the spec: the tri-state of `oj.h` (enabled, disabled,
unspecified); `oj.c` names the constants `Yes` and `No` and treats every
other value as unspecified. -/
inductive YesNo where
  | Yes
  | No
  | NotSet
  deriving DecidableEq, Repr

/-- Modelled from the spec: the mode enumeration of `oj.h` (Strict, Object,
Compat, Null), with the constant names `oj.c` uses. -/
inductive Mode where
  | StrictMode
  | ObjectMode
  | CompatMode
  | NullMode
  deriving DecidableEq, Repr

/-- Modelled from the spec: `struct _DumpOpts` of `oj.h`, the five format
strings, each next to its size.  A `char *` is the buffer it points at
(`none` for the null pointer); a size is a `uint8_t`, kept below 256 by the
code that stores it. -/
structure DumpOpts where
  indent : Option (List Byte)
  before_sep : Option (List Byte)
  after_sep : Option (List Byte)
  hash_nl : Option (List Byte)
  array_nl : Option (List Byte)
  indent_size : Nat
  before_size : Nat
  after_size : Nat
  hash_size : Nat
  array_size : Nat
  deriving DecidableEq, Repr

/-- Modelled from the spec: `struct _Options` of `oj.h`, in the order of the
initialiser of `oj_default_options`. -/
structure Options where
  encoding : Option rb_encoding
  indent : Int
  circular : YesNo
  auto_define : YesNo
  sym_key : YesNo
  ascii_only : YesNo
  mode : Mode
  dump_opts : Option DumpOpts
  deriving DecidableEq, Repr

/-- What is fixed outside `oj.c`: the three preprocessor symbols it tests, the
name lookup of the runtime's encoding table, and the operating system:
`lseek_end fd` is the offset `lseek(fd, 0, SEEK_END)` returns, `read fd len`
the bytes one `read(fd, json, len)` delivers (`none` when it fails). -/
structure Env where
  HAVE_RUBY_ENCODING_H : Bool
  ENCODING_INLINE_MAX : Bool
  RUBINIUS : Bool
  rb_enc_find : List Byte → rb_encoding
  lseek_end : Int → Nat
  read : Int → Nat → Option (List Byte)

/-- The static initialiser of `oj_default_options`. -/
def oj_default_options : Options where
  encoding := none
  indent := 0
  circular := YesNo.No
  auto_define := YesNo.Yes
  sym_key := YesNo.No
  ascii_only := YesNo.No
  mode := Mode.ObjectMode
  dump_opts := none

/-- The test `Qtrue == v`. -/
def VALUE.is_true : VALUE → Bool
  | VALUE.Qtrue => true
  | _ => false

/-- The test `Qfalse == v`. -/
def VALUE.is_false : VALUE → Bool
  | VALUE.Qfalse => true
  | _ => false

/-- `StringValuePtr(v)` of a String: the buffer holding its bytes (a NUL
follows the last of them). -/
def StringValuePtr : VALUE → List Byte
  | VALUE.String s _ => s
  | _ => []

/-- `rb_to_encoding(v)` of an Encoding object. -/
def rb_to_encoding : VALUE → Option rb_encoding
  | VALUE.Encoding e => some e
  | _ => none

/-- `rb_enc_from_encoding(enc)`: the Encoding object of an encoding. -/
def rb_enc_from_encoding (enc : rb_encoding) : VALUE := VALUE.Encoding enc

/-- `FIX2INT(v)` and `NUM2INT(v)` of a 64-bit Ruby: the value of an integer
that fits an `int`, a RangeError for one that does not. -/
def NUM2INT_value : VALUE → Exec Int
  | VALUE.Integer n => NUM2INT n
  | _ => Exec.raise Raise.rb_eTypeError

/-- The field of an `Options` that a `char *attr` of a `ynos` table points
at. -/
inductive YesNoAttr where
  | circular
  | auto_define
  | sym_key
  | ascii_only
  deriving DecidableEq, Repr

/-- An entry of a `ynos` table, `struct _YesNoOpt`. -/
structure YesNoOpt where
  sym : VALUE
  attr : YesNoAttr

/-- The assignment `*o->attr = v` into the `Options` the table points into. -/
def Options.store (o : Options) (a : YesNoAttr) (v : YesNo) : Options :=
  match a with
  | YesNoAttr.circular => { o with circular := v }
  | YesNoAttr.auto_define => { o with auto_define := v }
  | YesNoAttr.sym_key => { o with sym_key := v }
  | YesNoAttr.ascii_only => { o with ascii_only := v }

/-- The table `ynos` of `set_def_opts` and of `parse_options`, up to its
terminating entry; the struct its pointers lead into is the `Options` the
loop is run on. -/
def ynos : List YesNoOpt :=
  [⟨circular_sym, YesNoAttr.circular⟩, ⟨auto_define_sym, YesNoAttr.auto_define⟩,
   ⟨symbol_keys_sym, YesNoAttr.sym_key⟩, ⟨ascii_only_sym, YesNoAttr.ascii_only⟩]

/-! ## `get_def_opts` and `set_def_opts` -/

/-- The conversion of a tri-state to `true`, `false` or `nil` in
`get_def_opts`. -/
def yes_no_value (y : YesNo) : VALUE :=
  if y = YesNo.Yes then VALUE.Qtrue else if y = YesNo.No then VALUE.Qfalse else VALUE.Qnil

/-- `get_def_opts`: the defaults `d` as a Hash. -/
def get_def_opts (env : Env) (d : Options) : VALUE :=
  let opts := rb_hash_new
  let opts :=
    if env.HAVE_RUBY_ENCODING_H then
      rb_hash_aset opts encoding_sym
        (match d.encoding with
         | none => VALUE.Qnil
         | some enc => rb_enc_from_encoding enc)
    else opts
  let opts := rb_hash_aset opts indent_sym (VALUE.Integer d.indent)
  let opts := rb_hash_aset opts circular_sym (yes_no_value d.circular)
  let opts := rb_hash_aset opts auto_define_sym (yes_no_value d.auto_define)
  let opts := rb_hash_aset opts ascii_only_sym (yes_no_value d.ascii_only)
  let opts := rb_hash_aset opts symbol_keys_sym (yes_no_value d.sym_key)
  match d.mode with
  | Mode.StrictMode => rb_hash_aset opts mode_sym strict_sym
  | Mode.CompatMode => rb_hash_aset opts mode_sym compat_sym
  | Mode.NullMode => rb_hash_aset opts mode_sym null_sym
  | Mode.ObjectMode => rb_hash_aset opts mode_sym object_sym

/-- The `:encoding` block of `set_def_opts` (lines 181-194), on the defaults
`d`. -/
def set_def_opts_encoding (env : Env) (opts : VALUE) (d : Options) : Exec Unit × Options :=
  if env.HAVE_RUBY_ENCODING_H && has_key opts encoding_sym then
    let v := rb_hash_lookup opts encoding_sym
    if v.is_nil then
      Exec.done { d with encoding := none }
    else if rb_type v = RType.T_STRING then
      Exec.done { d with encoding := some (env.rb_enc_find (cstr (StringValuePtr v))) }
    else if rb_obj_class v = RClass.rb_cEncoding then
      Exec.done { d with encoding := rb_to_encoding v }
    else
      (Exec.raise (Raise.rb_eArgError ":encoding must be nil, a String, or an Encoding.\n"), d)
  else
    Exec.done d

/-- The `:indent` block of `set_def_opts` (lines 195-199). -/
def set_def_opts_indent (opts : VALUE) (d : Options) : Exec Unit × Options :=
  let v := rb_hash_aref opts indent_sym
  if !v.is_nil then
    if rb_type v ≠ RType.T_FIXNUM then
      (Exec.raise Raise.rb_eTypeError, d)
    else
      match NUM2INT_value v with
      | Exec.ret n => Exec.done { d with indent := n }
      | Exec.raise e => (Exec.raise e, d)
  else
    Exec.done d

/-- The `:mode` block of `set_def_opts` (lines 201-214). -/
def set_def_opts_mode (opts : VALUE) (d : Options) : Exec Unit × Options :=
  let v := rb_hash_lookup opts mode_sym
  if v.is_nil then
    Exec.done d
  else if same_symbol object_sym v then
    Exec.done { d with mode := Mode.ObjectMode }
  else if same_symbol strict_sym v then
    Exec.done { d with mode := Mode.StrictMode }
  else if same_symbol compat_sym v then
    Exec.done { d with mode := Mode.CompatMode }
  else if same_symbol null_sym v then
    Exec.done { d with mode := Mode.NullMode }
  else
    (Exec.raise (Raise.rb_eArgError ":mode must be :object, :strict, :compat, or :null.\n"), d)

/-- The loop over `ynos` of `set_def_opts` (lines 216-229). -/
def set_def_opts_ynos (opts : VALUE) : List YesNoOpt → Options → Exec Unit × Options
  | [], d => Exec.done d
  | o :: rest, d =>
    if !has_key opts o.sym then
      set_def_opts_ynos opts rest d
    else
      let v := rb_hash_lookup opts o.sym
      if !v.is_nil then
        if v.is_true then
          set_def_opts_ynos opts rest (d.store o.attr YesNo.Yes)
        else if v.is_false then
          set_def_opts_ynos opts rest (d.store o.attr YesNo.No)
        else
          (Exec.raise (Raise.rb_eArgError (rb_id2name o.sym ++ " must be true, false, or nil.\n")), d)
      else
        set_def_opts_ynos opts rest d

/-- `set_def_opts(self, opts)`, that is `Oj.default_options = opts`, run on
the defaults `d`: the outcome and the defaults it leaves. -/
def set_def_opts (env : Env) (opts : VALUE) (d : Options) : Exec VALUE × Options :=
  if rb_type opts ≠ RType.T_HASH then
    (Exec.raise Raise.rb_eTypeError, d)
  else
    Exec.andThen (set_def_opts_encoding env opts d) fun d =>
    Exec.andThen (set_def_opts_indent opts d) fun d =>
    Exec.andThen (set_def_opts_mode opts d) fun d =>
    Exec.andThen (set_def_opts_ynos opts ynos d) fun d =>
    (Exec.ret VALUE.Qnil, d)

/-! ## `parse_options` -/

/-- The memory `parse_options` writes: the caller's `Options` behind the
pointer `copts`, and the global `oj_default_options`. -/
structure Mem where
  copts : Options
  defaults : Options
  deriving DecidableEq, Repr

/-- The `:indent` block of `parse_options` (lines 247-252). -/
def parse_options_indent (ropts : VALUE) (m : Mem) : Exec Unit × Mem :=
  let v := rb_hash_lookup ropts indent_sym
  if !v.is_nil then
    if rb_obj_class v ≠ RClass.rb_cFixnum then
      (Exec.raise (Raise.rb_eArgError ":indent must be a Fixnum.\n"), m)
    else
      match NUM2INT_value v with
      | Exec.ret n => Exec.done { m with copts := { m.copts with indent := n } }
      | Exec.raise e => (Exec.raise e, m)
  else
    Exec.done m

/-- The `:encoding` block of `parse_options` (lines 253-263): both
assignments are to `oj_default_options.encoding`. -/
def parse_options_encoding (env : Env) (ropts : VALUE) (m : Mem) : Exec Unit × Mem :=
  if env.HAVE_RUBY_ENCODING_H then
    let v := rb_hash_lookup ropts encoding_sym
    if !v.is_nil then
      if rb_type v = RType.T_STRING then
        Exec.done { m with defaults :=
          { m.defaults with encoding := some (env.rb_enc_find (cstr (StringValuePtr v))) } }
      else if rb_obj_class v = RClass.rb_cEncoding then
        Exec.done { m with defaults := { m.defaults with encoding := rb_to_encoding v } }
      else
        (Exec.raise (Raise.rb_eArgError ":encoding must be nil, a String, or an Encoding.\n"), m)
    else
      Exec.done m
  else
    Exec.done m

/-- The `:mode` block of `parse_options` (lines 264-276). -/
def parse_options_mode (ropts : VALUE) (m : Mem) : Exec Unit × Mem :=
  let v := rb_hash_lookup ropts mode_sym
  if !v.is_nil then
    if same_symbol object_sym v then
      Exec.done { m with copts := { m.copts with mode := Mode.ObjectMode } }
    else if same_symbol strict_sym v then
      Exec.done { m with copts := { m.copts with mode := Mode.StrictMode } }
    else if same_symbol compat_sym v then
      Exec.done { m with copts := { m.copts with mode := Mode.CompatMode } }
    else if same_symbol null_sym v then
      Exec.done { m with copts := { m.copts with mode := Mode.NullMode } }
    else
      (Exec.raise (Raise.rb_eArgError ":mode must be :object, :strict, :compat, or :null.\n"), m)
  else
    Exec.done m

/-- The loop over `ynos` of `parse_options` (lines 277-287); the table points
into `*copts`. -/
def parse_options_ynos (ropts : VALUE) : List YesNoOpt → Mem → Exec Unit × Mem
  | [], m => Exec.done m
  | o :: rest, m =>
    let v := rb_hash_lookup ropts o.sym
    if !v.is_nil then
      if v.is_true then
        parse_options_ynos ropts rest { m with copts := m.copts.store o.attr YesNo.Yes }
      else if v.is_false then
        parse_options_ynos ropts rest { m with copts := m.copts.store o.attr YesNo.No }
      else
        (Exec.raise (Raise.rb_eArgError (rb_id2name o.sym ++ " must be true or false.\n")), m)
    else
      parse_options_ynos ropts rest m

/-- `parse_options(ropts, copts)`, run on the memory `m`. -/
def parse_options (env : Env) (ropts : VALUE) (m : Mem) : Exec Unit × Mem :=
  if rb_obj_class ropts = RClass.rb_cHash then
    Exec.andThen (parse_options_indent ropts m) fun m =>
    Exec.andThen (parse_options_encoding env ropts m) fun m =>
    Exec.andThen (parse_options_mode ropts m) fun m =>
    parse_options_ynos ropts ynos m
  else
    Exec.done m

/-! ## `Init_oj` -/

/-- The bytes of the literal `"UTF-8"`. -/
def utf8_name : List Byte := [85, 84, 70, 45, 56]

/-- `Init_oj`, as far as it writes `oj_default_options` (lines 792-795); the
rest of it registers methods and interns names. -/
def Init_oj (env : Env) (d : Options) : Options :=
  let d := { d with mode := Mode.ObjectMode }
  if env.HAVE_RUBY_ENCODING_H then
    { d with encoding := some (env.rb_enc_find utf8_name) }
  else d

/-! ## `load` -/

/-- The copy `strcpy(json, p)` leaves in the buffer `json`: the bytes of the
C string at `p`, then the terminating NUL. -/
def strcpy (p : List Byte) : List Byte :=
  cstr p ++ [0]

/-- `load_with_opts(input, copts)`: the buffer `json` is filled from the
input and handed to the parser `oj_parse` together with `copts`. -/
def load_with_opts (env : Env) (oj_parse : List Byte → Options → Exec VALUE)
    (input : VALUE) (copts : Options) : Exec VALUE :=
  if rb_type input = RType.T_STRING then
    oj_parse (strcpy (StringValuePtr input)) copts
  else
    match input with
    | VALUE.Object o =>
      if rb_obj_class input = RClass.oj_stringio_class then
        oj_parse (strcpy o.string) copts
      else
        match o.fileno, o.read with
        | some (some fd), _ =>
          match NUM2INT fd with
          | Exec.raise e => Exec.raise e
          | Exec.ret fd =>
            let len := env.lseek_end fd
            match env.read fd len with
            | none => Exec.raise (Raise.rb_eIOError "failed to read from IO Object.\n")
            | some data =>
              if data.length = 0 ∨ data.length ≠ len then
                Exec.raise (Raise.rb_eIOError "failed to read from IO Object.\n")
              else
                oj_parse (data ++ [0]) copts
        | _, some s => oj_parse (strcpy s) copts
        | _, none => Exec.raise (Raise.rb_eArgError "load() expected a String or IO Object.\n")
    | _ => Exec.raise (Raise.rb_eArgError "load() expected a String or IO Object.\n")

/-- `load(argc, argv, self)` with `argc = argv.length`, run on the defaults
`d`: the outcome and the defaults it leaves. -/
def load (env : Env) (oj_parse : List Byte → Options → Exec VALUE)
    (argv : List VALUE) (d : Options) : Exec VALUE × Options :=
  let options := d
  match argv with
  | [] => (Exec.raise (Raise.rb_eArgError "Wrong number of arguments to load().\n"), d)
  | [input] => (load_with_opts env oj_parse input options, d)
  | input :: ropts :: _ =>
    match parse_options env ropts ⟨options, d⟩ with
    | (Exec.raise e, m) => (Exec.raise e, m.defaults)
    | (Exec.ret _, m) => (load_with_opts env oj_parse input m.copts, m.defaults)

/-! ## The imitation of the JSON gem's generators -/

/-- The local `dump_opts` of `mimic_generate_core` after its `memset`. -/
def zero_dump_opts : DumpOpts where
  indent := none
  before_sep := none
  after_sep := none
  hash_nl := none
  array_nl := none
  indent_size := 0
  before_size := 0
  after_size := 0
  hash_size := 0
  array_size := 0

/-- The `DumpOpts` that `copts->dump_opts` points at once the statement
`if (0 == copts->dump_opts) copts->dump_opts = &dump_opts;` has run. -/
def Options.dump_opts_struct (copts : Options) : DumpOpts :=
  match copts.dump_opts with
  | none => zero_dump_opts
  | some p => p

/-- The cast `(uint8_t)n`. -/
def to_uint8 (n : Nat) : Nat := n % 256

/-- One of the five blocks of `mimic_generate_core` (lines 570-609): look the
key up and, unless it is `nil`, require a String and store its buffer and the
`strlen` of it, cast to `uint8_t`, by `store`. -/
def mimic_generate_core_key (ropts key : VALUE)
    (store : DumpOpts → List Byte → Nat → DumpOpts) (copts : Options) : Exec Unit × Options :=
  let v := rb_hash_lookup ropts key
  if !v.is_nil then
    if rb_type v ≠ RType.T_STRING then
      (Exec.raise Raise.rb_eTypeError, copts)
    else
      let p := StringValuePtr v
      Exec.done { copts with
        dump_opts := some (store copts.dump_opts_struct p (to_uint8 (strlen p))) }
  else
    Exec.done copts

/-- The option block of `mimic_generate_core` (lines 561-612). -/
def mimic_generate_core_opts (argv : List VALUE) (copts : Options) : Exec Unit × Options :=
  let ropts := argv.getD 1 VALUE.Qnil
  if argv.length = 2 ∧ !ropts.is_nil then
    if rb_type ropts ≠ RType.T_HASH then
      (Exec.raise (Raise.rb_eArgError "options must be a hash.\n"), copts)
    else
      Exec.andThen (mimic_generate_core_key ropts indent_sym
        (fun o p n => { o with indent := some p, indent_size := n }) copts) fun copts =>
      Exec.andThen (mimic_generate_core_key ropts space_sym
        (fun o p n => { o with after_sep := some p, after_size := n }) copts) fun copts =>
      Exec.andThen (mimic_generate_core_key ropts space_before_sym
        (fun o p n => { o with before_sep := some p, before_size := n }) copts) fun copts =>
      Exec.andThen (mimic_generate_core_key ropts object_nl_sym
        (fun o p n => { o with hash_nl := some p, hash_size := n }) copts) fun copts =>
      mimic_generate_core_key ropts array_nl_sym
        (fun o p n => { o with array_nl := some p, array_size := n }) copts
  else
    Exec.done copts

/-- `rb_str_new2(json)`: a new String holding the C string `json`, in the
encoding of index 0 (binary). -/
def rb_str_new2 (json : List Byte) : VALUE := VALUE.String (cstr json) 0

/-- `rb_enc_associate(str, enc)`. -/
def rb_enc_associate (str : VALUE) (enc : rb_encoding) : VALUE :=
  match str with
  | VALUE.String s _ => VALUE.String s enc
  | v => v

/-- `mimic_generate_core(argc, argv, copts)` with `argc = argv.length`: the
outcome and the `Options` left behind the pointer `copts`.  The writer
`oj_write_obj_to_str` returns the C string it allocated, `none` for a null
pointer. -/
def mimic_generate_core (env : Env) (oj_write_obj_to_str : VALUE → Options → Option (List Byte))
    (argv : List VALUE) (copts : Options) : Exec VALUE × Options :=
  Exec.andThen (mimic_generate_core_opts argv copts) fun copts =>
  match oj_write_obj_to_str (argv.getD 0 VALUE.Qnil) copts with
  | none => (Exec.raise (Raise.rb_eNoMemError "Not enough memory.\n"), copts)
  | some json =>
    let rstr := rb_str_new2 json
    let rstr :=
      if env.ENCODING_INLINE_MAX then
        match copts.encoding with
        | some enc => rb_enc_associate rstr enc
        | none => rstr
      else rstr
    (Exec.ret rstr, copts)

/-- `mimic_generate(argc, argv, self)` on the defaults `d`. -/
def mimic_generate (env : Env) (oj_write_obj_to_str : VALUE → Options → Option (List Byte))
    (argv : List VALUE) (d : Options) : Exec VALUE :=
  let copts := d
  (mimic_generate_core env oj_write_obj_to_str argv copts).1

/-- The bytes of the literal `"  "`. -/
def two_spaces : List Byte := [32, 32]

/-- The bytes of the literal `" "`. -/
def one_space : List Byte := [32]

/-- The bytes of the literal `"\n"`. -/
def newline : List Byte := [10]

/-- The local `dump_opts` of `mimic_pretty_generate` once filled (lines
639-648). -/
def pretty_dump_opts : DumpOpts where
  indent := some two_spaces
  indent_size := to_uint8 (strlen two_spaces)
  before_sep := some one_space
  before_size := to_uint8 (strlen one_space)
  after_sep := some one_space
  after_size := to_uint8 (strlen one_space)
  hash_nl := some newline
  hash_size := to_uint8 (strlen newline)
  array_nl := some newline
  array_size := to_uint8 (strlen newline)

/-- `mimic_pretty_generate(argc, argv, self)` on the defaults `d`. -/
def mimic_pretty_generate (env : Env)
    (oj_write_obj_to_str : VALUE → Options → Option (List Byte))
    (argv : List VALUE) (d : Options) : Exec VALUE :=
  let copts := d
  let dump_opts := pretty_dump_opts
  let copts := { copts with dump_opts := some dump_opts }
  (mimic_generate_core env oj_write_obj_to_str argv copts).1

/-! ## `mimic_walk` and its callers -/

/-- A call from `mimic_walk` into Ruby code: `rb_proc_call_with_block(proc, 1,
args, Qnil)` with `*args = obj`, or `rb_yield(obj)`.  The calls made are
recorded in order; the proc or block is taken to return normally. -/
inductive Invoke where
  | rb_proc_call_with_block (proc obj : VALUE)
  | rb_yield (obj : VALUE)

mutual
/-- `mimic_walk(key, obj, proc)`, appending the calls it makes to `tr`;
`block_given` is what `rb_block_given_p()` returns. -/
def mimic_walk (env : Env) (block_given : Bool) (key obj proc : VALUE) (tr : List Invoke) :
    Exec Unit × List Invoke :=
  let r : Exec Unit × List Invoke :=
    match obj with
    | VALUE.Hash _ _ tbl => rb_hash_foreach_mimic_walk env block_given tbl proc tr
    | VALUE.Array elts => mimic_walk_array env block_given elts proc tr
    | _ => (Exec.ret (), tr)
  match r with
  | (Exec.raise e, tr) => (Exec.raise e, tr)
  | (Exec.ret _, tr) =>
    if proc.is_nil then
      if block_given then (Exec.ret (), tr ++ [Invoke.rb_yield obj]) else (Exec.ret (), tr)
    else if env.RUBINIUS then
      (Exec.raise (Raise.rb_eNotImpError "Not supported in Rubinius.\n"), tr)
    else
      (Exec.ret (), tr ++ [Invoke.rb_proc_call_with_block proc obj])
termination_by structural obj
/-- The loop `for (; 0 < cnt; cnt--, np++) mimic_walk(Qnil, *np, proc);` over
the elements from `np` on. -/
def mimic_walk_array (env : Env) (block_given : Bool) (np : List VALUE) (proc : VALUE)
    (tr : List Invoke) : Exec Unit × List Invoke :=
  match np with
  | [] => (Exec.ret (), tr)
  | x :: rest =>
    match mimic_walk env block_given VALUE.Qnil x proc tr with
    | (Exec.raise e, tr) => (Exec.raise e, tr)
    | (Exec.ret _, tr) => mimic_walk_array env block_given rest proc tr
termination_by structural np
/-- The call `rb_hash_foreach(obj, mimic_walk, proc)` over the entries of the
table in insertion order; `mimic_walk` always returns `ST_CONTINUE`. -/
def rb_hash_foreach_mimic_walk (env : Env) (block_given : Bool)
    (tbl : List (VALUE × VALUE)) (proc : VALUE) (tr : List Invoke) :
    Exec Unit × List Invoke :=
  match tbl with
  | [] => (Exec.ret (), tr)
  | (k, v) :: rest =>
    match mimic_walk env block_given k v proc tr with
    | (Exec.raise e, tr) => (Exec.raise e, tr)
    | (Exec.ret _, tr) => rb_hash_foreach_mimic_walk env block_given rest proc tr
termination_by structural tbl
end

/-- `mimic_load(argc, argv, self)` with `argc = argv.length` and `argv`
holding at least the document: `load(1, argv, self)` parses it, then the
result is walked with the proc `argv[1]`, if there is one.  The outcome, the
defaults left and the calls made. -/
def mimic_load (env : Env) (oj_parse : List Byte → Options → Exec VALUE) (block_given : Bool)
    (argv : List VALUE) (d : Options) (tr : List Invoke) : Exec VALUE × Options × List Invoke :=
  match load env oj_parse (argv.take 1) d with
  | (Exec.raise e, d) => (Exec.raise e, d, tr)
  | (Exec.ret obj, d) =>
    let p := if 2 ≤ argv.length then argv.getD 1 VALUE.Qnil else VALUE.Qnil
    match mimic_walk env block_given VALUE.Qnil obj p tr with
    | (Exec.raise e, tr) => (Exec.raise e, d, tr)
    | (Exec.ret _, tr) => (Exec.ret obj, d, tr)

/-- `mimic_recurse_proc(self, obj)`: `rb_need_block()` raises a LocalJumpError
when no block is given, then the object is walked without a proc. -/
def mimic_recurse_proc (env : Env) (block_given : Bool) (obj : VALUE) (tr : List Invoke) :
    Exec VALUE × List Invoke :=
  if !block_given then
    (Exec.raise Raise.rb_eLocalJumpError, tr)
  else
    Exec.andThen (mimic_walk env block_given VALUE.Qnil obj VALUE.Qnil tr) fun tr =>
    (Exec.ret VALUE.Qnil, tr)

/-! ## `_oj_raise_error` -/

/-- The byte `xml[i]`; the buffer `xml` is listed without its terminating
NUL, which is what is read at `i = xml.length`. -/
def peek (xml : List Byte) (i : Nat) : Byte := xml.getD i 0

/-- The value an `int` holds after a computation whose exact result is `n`:
`n` itself when it fits, else `n` reduced modulo `2^32` into the range from
`INT_MIN` to `INT_MAX`. -/
def int_wrap (n : Int) : Int := (n + 2147483648) % 4294967296 - 2147483648

/-- The first loop of `_oj_raise_error` (lines 808-810), from the offset
`current` with the column count `col`, an `int`: the offset and the count it
ends with. -/
def raise_error_col (xml : List Byte) : Nat → Int → Nat × Int
  | 0, col => (0, col)
  | current + 1, col =>
    if NL ≠ peek xml (current + 1) then raise_error_col xml current (int_wrap (col + 1))
    else (current + 1, col)

/-- The second loop of `_oj_raise_error` (lines 811-815), from the offset
`current` with the line count `xline`, an `int`. -/
def raise_error_line (xml : List Byte) : Nat → Int → Int
  | 0, xline => xline
  | current + 1, xline =>
    raise_error_line xml current
      (if NL = peek xml (current + 1) then int_wrap (xline + 1) else xline)

/-- `_oj_raise_error(msg, xml, current, file, line)`, the pointer `current`
given as its offset from `xml`: the SyntaxError it raises, with the arguments
of its format. -/
def _oj_raise_error (msg : String) (xml : List Byte) (current : Nat) (file : String)
    (line : Int) : Raise :=
  let xline := 1
  let col := 1
  let (current, col) := raise_error_col xml current col
  let xline := raise_error_line xml current xline
  Raise.rb_eSyntaxError msg xline col file line

/-- The line number of the SyntaxError of `_oj_raise_error`. -/
def Raise.xline : Raise → Int
  | Raise.rb_eSyntaxError _ xline _ _ _ => xline
  | _ => 0

/-- The column number of the SyntaxError of `_oj_raise_error`. -/
def Raise.col : Raise → Int
  | Raise.rb_eSyntaxError _ _ col _ _ => col
  | _ => 0

/-! ## Fixtures and the vocabulary of the statements -/

/-- The bytes of the name `"US-ASCII"`. -/
def us_ascii_name : List Byte := [85, 83, 45, 65, 83, 67, 73, 73]

/-- A Ruby 1.9 runtime for the concrete runs: the encoding header is there,
the encoding table holds binary at 0, UTF-8 at 1 and US-ASCII at 2, no file
descriptor can be read, and the build is not one for Rubinius. -/
def ruby19 : Env where
  HAVE_RUBY_ENCODING_H := true
  ENCODING_INLINE_MAX := true
  RUBINIUS := false
  rb_enc_find := fun name => if name = utf8_name then 1 else if name = us_ascii_name then 2 else 0
  lseek_end := fun _ => 0
  read := fun _ _ => none

/-- The defaults of a process that has just loaded the extension. -/
def started : Options := Init_oj ruby19 oj_default_options

/-- A Hash literal: class `Hash`, default `nil`, the given bindings. -/
def hash_of (tbl : List (VALUE × VALUE)) : VALUE := VALUE.Hash true VALUE.Qnil tbl

/-- A writer for the concrete runs: it returns the empty C string. -/
def null_writer : VALUE → Options → Option (List Byte) := fun _ _ => some []

/-- Two `Options` that differ at most in `encoding`. -/
def agree_but_encoding (a b : Options) : Prop :=
  a.indent = b.indent ∧ a.circular = b.circular ∧ a.auto_define = b.auto_define ∧
  a.sym_key = b.sym_key ∧ a.ascii_only = b.ascii_only ∧ a.mode = b.mode ∧
  a.dump_opts = b.dump_opts

/-- Following the claim's words: the number of newline bytes at the offsets
before `k`, so that `1 + newlines_before xml k` is the number of the line
that contains offset `k`. -/
def newlines_before (xml : List Byte) (k : Nat) : Nat := (xml.take k).count NL

/-- Following the claim's words: the number of newline bytes from offset 0
up to and including offset `k`. -/
def newlines_through (xml : List Byte) (k : Nat) : Nat := (xml.take (k + 1)).count NL

/-- Following the claim's words: the offset of the last newline byte before
offset `k`, if there is one. -/
def last_newline_before (xml : List Byte) : Nat → Option Nat
  | 0 => none
  | k + 1 => if peek xml k = NL then some k else last_newline_before xml k

/-- Following the claim's words: the column of offset `k`, namely `k - p`
when `p` is the offset of the last newline before `k`, and `k + 1` when no
newline precedes `k`. -/
def claimed_col (xml : List Byte) (k : Nat) : Nat :=
  match last_newline_before xml k with
  | some p => k - p
  | none => k + 1

/-- The offset at which the back-scan for the column stops: the failure
offset itself when it holds a newline or is 0, else the nearest offset before
it that holds a newline, else 0. -/
def scan_stop (xml : List Byte) : Nat → Nat
  | 0 => 0
  | k + 1 => if peek xml (k + 1) = NL then k + 1 else scan_stop xml k

/-- The number of newline bytes at the offsets `1, ..., j`. -/
def newlines_from_one (xml : List Byte) : Nat → Nat
  | 0 => 0
  | j + 1 => newlines_from_one xml j + (if peek xml (j + 1) = NL then 1 else 0)

/-- The truncated document `{"a":`, five bytes. -/
def truncated_doc : List Byte := [123, 34, 97, 34, 58]

/-- The five keys `mimic_generate_core` reads. -/
def format_keys : List VALUE :=
  [indent_sym, space_sym, space_before_sym, object_nl_sym, array_nl_sym]

/-- A value `rb_check_type(v, T_STRING)` is not asked about or lets pass:
`nil` or a String. -/
def is_format_value : VALUE → Bool
  | VALUE.Qnil => true
  | VALUE.String _ _ => true
  | _ => false

/-- How one format string and its size stand after the call, given the value
`v` of its key: the buffer of the String and the `uint8_t` of its `strlen`
when `v` is a String, what they were before when `v` is `nil`. -/
def format_overlaid (v : VALUE) (before after : Option (List Byte) × Nat) : Prop :=
  (∀ s e, v = VALUE.String s e → after = (some s, to_uint8 (strlen s))) ∧
  (v = VALUE.Qnil → after = before)

/-- The five format strings of `a` are those of `b` overlaid with the
options hash `ropts`, key by key. -/
def formats_overlaid (ropts : VALUE) (b a : DumpOpts) : Prop :=
  format_overlaid (rb_hash_lookup ropts indent_sym)
    (b.indent, b.indent_size) (a.indent, a.indent_size) ∧
  format_overlaid (rb_hash_lookup ropts space_sym)
    (b.after_sep, b.after_size) (a.after_sep, a.after_size) ∧
  format_overlaid (rb_hash_lookup ropts space_before_sym)
    (b.before_sep, b.before_size) (a.before_sep, a.before_size) ∧
  format_overlaid (rb_hash_lookup ropts object_nl_sym)
    (b.hash_nl, b.hash_size) (a.hash_nl, a.hash_size) ∧
  format_overlaid (rb_hash_lookup ropts array_nl_sym)
    (b.array_nl, b.array_size) (a.array_nl, a.array_size)

/-- The format string at position `i` of `format_keys`, with its size. -/
def DumpOpts.format (o : DumpOpts) : Nat → Option (List Byte) × Nat
  | 0 => (o.indent, o.indent_size)
  | 1 => (o.after_sep, o.after_size)
  | 2 => (o.before_sep, o.before_size)
  | 3 => (o.hash_nl, o.hash_size)
  | _ => (o.array_nl, o.array_size)

/-- The keys at the positions `0, ..., i` of `format_keys` all hold a String
or `nil` in `ropts`: the type checks let the call get past the block of the
key at position `i`. -/
def format_keys_pass (ropts : VALUE) (i : Nat) : Prop :=
  ∀ key ∈ format_keys.take (i + 1), is_format_value (rb_hash_lookup ropts key) = true

/-- The five format strings of `a` are those of `b` overlaid with the options
hash `ropts` as far as the type checks let the call get: the string of a key
whose block was passed is overlaid with the value of the key, the string of
the key whose value failed the check and of every key after it is what it
was. -/
def formats_overlaid_while_pass (ropts : VALUE) (b a : DumpOpts) : Prop :=
  ∀ i, i < 5 →
    (format_keys_pass ropts i →
      format_overlaid (rb_hash_lookup ropts (format_keys.getD i VALUE.Qnil))
        (b.format i) (a.format i)) ∧
    (¬ format_keys_pass ropts i → a.format i = b.format i)

/-- The size stored for the key whose value is `v`: when `v` is a String it
is the length of the C string in its buffer modulo 256, and the number of
bytes of the String when that is below 256 and none of them is NUL. -/
def size_stored (v : VALUE) (size : Nat) : Prop :=
  ∀ s e, v = VALUE.String s e →
    size = strlen s % 256 ∧ ((∀ b ∈ s, b ≠ 0) → s.length < 256 → size = s.length)

/-- A String of 256 spaces. -/
def long_indent : List Byte := List.replicate 256 32

/-- The three bytes space, NUL, space. -/
def nul_inside : List Byte := [32, 0, 32]

/-- An options hash with a tab for `:indent` and the integer 5 for
`:space`. -/
def bad_space_opts : VALUE :=
  hash_of [(indent_sym, VALUE.String [9] 0), (space_sym, VALUE.Integer 5)]

/-- The Ruby value of a boolean. -/
def bool_value (b : Bool) : VALUE := if b then VALUE.Qtrue else VALUE.Qfalse

/-- A parser for the concrete runs: it returns the buffer it was handed, as
a String. -/
def echo_parse : List Byte → Options → Exec VALUE :=
  fun json _ => Exec.ret (VALUE.String json 0)

/-- The document `[1]`, three bytes. -/
def small_doc : List Byte := [91, 49, 93]

/-- Reading `*o->attr`. -/
def Options.fetch (o : Options) (a : YesNoAttr) : YesNo :=
  match a with
  | YesNoAttr.circular => o.circular
  | YesNoAttr.auto_define => o.auto_define
  | YesNoAttr.sym_key => o.sym_key
  | YesNoAttr.ascii_only => o.ascii_only

/-- The symbol `get_def_opts` stores for a mode. -/
def mode_symbol : Mode → VALUE
  | Mode.StrictMode => strict_sym
  | Mode.CompatMode => compat_sym
  | Mode.NullMode => null_sym
  | Mode.ObjectMode => object_sym

/-- Defaults with every kind of field value: an encoding, an indent, the
three tri-state values, a mode other than the initial one. -/
def mixed_defaults : Options where
  encoding := some 2
  indent := 4
  circular := YesNo.Yes
  auto_define := YesNo.NotSet
  sym_key := YesNo.No
  ascii_only := YesNo.NotSet
  mode := Mode.NullMode
  dump_opts := none

mutual
/-- Following the claim's words: the nodes of a tree in post-order, every
descendant of a container before the container, the elements of an array in
index order and the values of a hash in insertion order; keys are no nodes. -/
def post_order : VALUE → List VALUE
  | VALUE.Hash c d tbl => post_order_values tbl ++ [VALUE.Hash c d tbl]
  | VALUE.Array elts => post_order_elements elts ++ [VALUE.Array elts]
  | v => [v]
/-- The nodes below the elements of an array, in post-order. -/
def post_order_elements : List VALUE → List VALUE
  | [] => []
  | x :: rest => post_order x ++ post_order_elements rest
/-- The nodes below the values of a hash, in post-order. -/
def post_order_values : List (VALUE × VALUE) → List VALUE
  | [] => []
  | (_, v) :: rest => post_order v ++ post_order_values rest
end

/-- The `i`-th child of a node: the element of index `i` of an array, the
value of the `i`-th entry of a hash; a leaf has no child and a key is no
child. -/
def child : VALUE → Nat → Option VALUE
  | VALUE.Array elts, i => elts[i]?
  | VALUE.Hash _ _ tbl, i => (tbl[i]?).map Prod.snd
  | _, _ => none

/-- The node at a position: the root at the empty path, else the node at the
rest of the path below the child the path starts with.  The nodes of a tree
are the positions at which this is defined. -/
def subtree : VALUE → List Nat → Option VALUE
  | obj, [] => some obj
  | obj, i :: p =>
    match child obj i with
    | none => none
    | some c => subtree c p

mutual
/-- The positions of the nodes of a tree, listed in post-order. -/
def post_order_paths : VALUE → List (List Nat)
  | VALUE.Hash _ _ tbl => paths_values tbl 0 ++ [[]]
  | VALUE.Array elts => paths_elements elts 0 ++ [[]]
  | _ => [[]]
/-- The positions below the elements of an array from index `i` on. -/
def paths_elements : List VALUE → Nat → List (List Nat)
  | [], _ => []
  | x :: rest, i => (post_order_paths x).map (fun p => i :: p) ++ paths_elements rest (i + 1)
/-- The positions below the values of a hash from entry `i` on. -/
def paths_values : List (VALUE × VALUE) → Nat → List (List Nat)
  | [], _ => []
  | (_, v) :: rest, i => (post_order_paths v).map (fun p => i :: p) ++ paths_values rest (i + 1)
end

/-- The order of a post-order walk on positions: `p` comes before `q` when
`q` is a proper ancestor of `p`, or when at the first index in which they
differ that of `p` is the smaller. -/
def post_before : List Nat → List Nat → Prop
  | [], _ => False
  | _ :: _, [] => True
  | i :: p, j :: q => i < j ∨ (i = j ∧ post_before p q)

/-- The call `mimic_walk` makes for a node: to the proc when there is one, a
yield to the block otherwise. -/
def invoke (proc obj : VALUE) : Invoke :=
  if proc.is_nil then Invoke.rb_yield obj else Invoke.rb_proc_call_with_block proc obj

/-- A build for Rubinius. -/
def rubinius : Env where
  HAVE_RUBY_ENCODING_H := true
  ENCODING_INLINE_MAX := true
  RUBINIUS := true
  rb_enc_find := ruby19.rb_enc_find
  lseek_end := fun _ => 0
  read := fun _ _ => none

/-- A proc, as an object of a class `oj.c` does not know. -/
def some_proc : VALUE := VALUE.Object ⟨false, [], none, none⟩

/-- The tree of the document `[1, {"a": [true]}]`. -/
def small_tree : VALUE :=
  VALUE.Array [VALUE.Integer 1,
    hash_of [(VALUE.String [97] 1, VALUE.Array [VALUE.Qtrue])]]

/-! ## Theorems -/

/-! ### Sequencing -/

theorem andThen_ret {σ α : Type} (a : Unit) (s : σ) (f : σ → Exec α × σ) :
    Exec.andThen (Exec.ret a, s) f = f s := rfl

theorem andThen_raise {σ α : Type} (e : Raise) (s : σ) (f : σ → Exec α × σ) :
    Exec.andThen (Exec.raise e, s) f = (Exec.raise e, s) := rfl

/-- A property of the memory that every block keeps holds after a sequence,
whether it raises or not. -/
theorem andThen_snd_inv {σ α : Type} (P : σ → Prop) (r : Exec Unit × σ) (f : σ → Exec α × σ)
    (hr : P r.2) (hf : ∀ s, P s → P (f s).2) : P (Exec.andThen r f).2 := by
  rcases r with ⟨x, s⟩
  cases x with
  | ret a => exact hf s hr
  | raise e => exact hr

theorem store_encoding (d : Options) (a : YesNoAttr) (v : YesNo) :
    (d.store a v).encoding = d.encoding := by
  cases a <;> rfl

theorem int_is_fixable (n : Int) (h : INT_MIN ≤ n ∧ n ≤ INT_MAX) : FIXABLE n = true := by
  simp only [FIXABLE, FIXNUM_MIN, FIXNUM_MAX, INT_MIN, INT_MAX, Bool.and_eq_true,
    decide_eq_true_eq] at *
  omega

/-! ### What `parse_options` writes -/

theorem parse_options_indent_frame (ropts : VALUE) (m : Mem) :
    (parse_options_indent ropts m).2.defaults = m.defaults ∧
    (parse_options_indent ropts m).2.copts.encoding = m.copts.encoding := by
  unfold parse_options_indent
  simp only []
  split
  · split
    · exact ⟨rfl, rfl⟩
    · cases NUM2INT_value (rb_hash_lookup ropts indent_sym) <;> exact ⟨rfl, rfl⟩
  · exact ⟨rfl, rfl⟩

theorem parse_options_encoding_frame (env : Env) (ropts : VALUE) (m : Mem) :
    agree_but_encoding (parse_options_encoding env ropts m).2.defaults m.defaults ∧
    (parse_options_encoding env ropts m).2.copts = m.copts ∧
    (env.HAVE_RUBY_ENCODING_H = false → (parse_options_encoding env ropts m).2 = m) := by
  unfold parse_options_encoding agree_but_encoding
  simp only []
  split_ifs <;> simp_all [Exec.done]

theorem parse_options_mode_frame (ropts : VALUE) (m : Mem) :
    (parse_options_mode ropts m).2.defaults = m.defaults ∧
    (parse_options_mode ropts m).2.copts.encoding = m.copts.encoding := by
  unfold parse_options_mode
  simp only []
  repeat' split
  all_goals exact ⟨rfl, rfl⟩

theorem parse_options_ynos_frame (ropts : VALUE) (l : List YesNoOpt) (m : Mem) :
    (parse_options_ynos ropts l m).2.defaults = m.defaults ∧
    (parse_options_ynos ropts l m).2.copts.encoding = m.copts.encoding := by
  induction l generalizing m with
  | nil => exact ⟨rfl, rfl⟩
  | cons o rest ih =>
    unfold parse_options_ynos
    simp only []
    repeat' split
    all_goals first
      | exact ⟨rfl, rfl⟩
      | exact ⟨(ih _).1, by rw [(ih _).2, store_encoding]⟩
      | exact ih _

/-- The defaults after `parse_options` differ from the defaults before at
most in `encoding`, and not at all when the encoding header is missing. -/
theorem parse_options_defaults_frame (env : Env) (ropts : VALUE) (m : Mem) :
    agree_but_encoding (parse_options env ropts m).2.defaults m.defaults ∧
    (env.HAVE_RUBY_ENCODING_H = false → (parse_options env ropts m).2.defaults = m.defaults) := by
  have refl_agree : agree_but_encoding m.defaults m.defaults := by
    simp [agree_but_encoding]
  unfold parse_options
  split
  · constructor
    · refine andThen_snd_inv (fun s : Mem => agree_but_encoding s.defaults m.defaults) _ _ ?_ ?_
      · beta_reduce
        rw [(parse_options_indent_frame ropts m).1]
        exact refl_agree
      · intro s1 h1
        refine andThen_snd_inv (fun s : Mem => agree_but_encoding s.defaults m.defaults) _ _ ?_ ?_
        · beta_reduce
          have h := (parse_options_encoding_frame env ropts s1).1
          unfold agree_but_encoding at h h1 ⊢
          simp only [h.1, h.2.1, h.2.2.1, h.2.2.2.1, h.2.2.2.2.1, h.2.2.2.2.2.1,
            h.2.2.2.2.2.2]
          exact h1
        · intro s2 h2
          refine andThen_snd_inv (fun s : Mem => agree_but_encoding s.defaults m.defaults) _ _ ?_ ?_
          · beta_reduce
            rw [(parse_options_mode_frame ropts s2).1]
            exact h2
          · intro s3 h3
            rw [(parse_options_ynos_frame ropts ynos s3).1]
            exact h3
    · intro hno
      refine andThen_snd_inv (fun s : Mem => s.defaults = m.defaults) _ _ ?_ ?_
      · beta_reduce
        exact (parse_options_indent_frame ropts m).1
      · intro s1 h1
        refine andThen_snd_inv (fun s : Mem => s.defaults = m.defaults) _ _ ?_ ?_
        · beta_reduce
          rw [(parse_options_encoding_frame env ropts s1).2.2 hno]
          exact h1
        · intro s2 h2
          refine andThen_snd_inv (fun s : Mem => s.defaults = m.defaults) _ _ ?_ ?_
          · beta_reduce
            rw [(parse_options_mode_frame ropts s2).1]
            exact h2
          · intro s3 h3
            rw [(parse_options_ynos_frame ropts ynos s3).1]
            exact h3
  · exact ⟨refl_agree, fun _ => rfl⟩

/-- No run of `parse_options` changes the `encoding` field of `*copts`. -/
theorem parse_options_copts_encoding (env : Env) (ropts : VALUE) (m : Mem) :
    (parse_options env ropts m).2.copts.encoding = m.copts.encoding := by
  unfold parse_options
  split
  · refine andThen_snd_inv (fun s : Mem => s.copts.encoding = m.copts.encoding) _ _ ?_ ?_
    · beta_reduce
      exact (parse_options_indent_frame ropts m).2
    · intro s1 h1
      refine andThen_snd_inv (fun s : Mem => s.copts.encoding = m.copts.encoding) _ _ ?_ ?_
      · beta_reduce
        rw [(parse_options_encoding_frame env ropts s1).2.1]
        exact h1
      · intro s2 h2
        refine andThen_snd_inv (fun s : Mem => s.copts.encoding = m.copts.encoding) _ _ ?_ ?_
        · beta_reduce
          rw [(parse_options_mode_frame ropts s2).2]
          exact h2
        · intro s3 h3
          rw [(parse_options_ynos_frame ropts ynos s3).2]
          exact h3
  · rfl

/-- Claim C1, evaluated where it fails.  On a process that has just loaded
the extension (default encoding UTF-8, index 1), `parse_options` is given the
options hash that maps `:encoding` to the String "US-ASCII" and a fresh copy
of the defaults: it returns normally and `oj_default_options.encoding` is
then US-ASCII (index 2), no longer what it was before the call. -/
theorem parse_options_overwrites_default_encoding :
    started.encoding = some 1 ∧
    (parse_options ruby19 (hash_of [(encoding_sym, VALUE.String us_ascii_name 0)])
      ⟨started, started⟩).1 = Exec.ret () ∧
    (parse_options ruby19 (hash_of [(encoding_sym, VALUE.String us_ascii_name 0)])
      ⟨started, started⟩).2.defaults.encoding = some 2 := by
  decide

/-- Claim C2, evaluated where it fails.  The options hash maps `:encoding`
to the Encoding object of US-ASCII (index 2); `parse_options` returns
normally, and the `encoding` field of the call's own `Options` is still the
UTF-8 (index 1) that was copied from the defaults, not the encoding of the
hash. -/
theorem parse_options_leaves_copts_encoding :
    rb_to_encoding (rb_hash_lookup (hash_of [(encoding_sym, VALUE.Encoding 2)]) encoding_sym)
      = some 2 ∧
    (parse_options ruby19 (hash_of [(encoding_sym, VALUE.Encoding 2)])
      ⟨started, started⟩).1 = Exec.ret () ∧
    (parse_options ruby19 (hash_of [(encoding_sym, VALUE.Encoding 2)])
      ⟨started, started⟩).2.copts.encoding = some 1 := by
  decide

/-- Claim C3 refuted: in the defaults of a process that has just loaded the
extension it is not true that `auto_define` differs from `Yes`. -/
theorem auto_define_default_counterexample :
    ¬ ((Init_oj ruby19 oj_default_options).auto_define ≠ YesNo.Yes) := by
  decide

/-- Claim C3 as amended: `auto_define` is enabled by default.  The static
initialiser sets it to `Yes`, `Init_oj` leaves it (and every field other than
`mode` and `encoding`) as it finds it, and a `load` call without an options
hash hands `load_with_opts` exactly these defaults, leaving them unchanged. -/
theorem auto_define_enabled_by_default (env : Env)
    (oj_parse : List Byte → Options → Exec VALUE) (input : VALUE) :
    oj_default_options.auto_define = YesNo.Yes ∧
    (∀ d, (Init_oj env d).auto_define = d.auto_define ∧ (Init_oj env d).indent = d.indent ∧
      (Init_oj env d).circular = d.circular ∧ (Init_oj env d).sym_key = d.sym_key ∧
      (Init_oj env d).ascii_only = d.ascii_only ∧ (Init_oj env d).dump_opts = d.dump_opts) ∧
    (Init_oj env oj_default_options).auto_define = YesNo.Yes ∧
    load env oj_parse [input] (Init_oj env oj_default_options) =
      (load_with_opts env oj_parse input (Init_oj env oj_default_options),
        Init_oj env oj_default_options) := by
  have h : ∀ d, (Init_oj env d).auto_define = d.auto_define ∧
      (Init_oj env d).indent = d.indent ∧
      (Init_oj env d).circular = d.circular ∧ (Init_oj env d).sym_key = d.sym_key ∧
      (Init_oj env d).ascii_only = d.ascii_only ∧ (Init_oj env d).dump_opts = d.dump_opts := by
    intro d
    unfold Init_oj
    split <;> simp
  exact ⟨rfl, h, by rw [(h _).1]; rfl, rfl⟩

/-! ### The position reported by `_oj_raise_error` -/

/-- The back-scan stops at or before the failure offset. -/
theorem scan_stop_le (xml : List Byte) (k : Nat) : scan_stop xml k ≤ k := by
  induction k with
  | zero => exact Nat.le_refl 0
  | succ n ih =>
    unfold scan_stop
    split
    · exact Nat.le_refl _
    · exact Nat.le_succ_of_le ih

/-- A value in the range of `int` is kept by `int_wrap`. -/
theorem int_wrap_of_range (n : Int) (hlo : -2147483648 ≤ n) (hhi : n ≤ 2147483647) :
    int_wrap n = n := by
  unfold int_wrap
  omega

/-- Counting on from a wrapped value ends where one wrap of the exact sum
ends. -/
theorem int_wrap_add (a b : Int) : int_wrap (int_wrap a + b) = int_wrap (a + b) := by
  unfold int_wrap
  omega

/-- The first loop ends at `scan_stop` with one more column, counted in an
`int`, for every byte it stepped over. -/
theorem raise_error_col_eq (xml : List Byte) (k : Nat) (col : Int) :
    raise_error_col xml k (int_wrap col) =
      (scan_stop xml k, int_wrap (col + ((k - scan_stop xml k : Nat) : Int))) := by
  induction k generalizing col with
  | zero => simp [raise_error_col, scan_stop]
  | succ n ih =>
    unfold raise_error_col scan_stop
    by_cases h : peek xml (n + 1) = NL
    · rw [if_neg (by simp [h]), if_pos h]
      simp
    · rw [if_pos (fun hc => h hc.symm), if_neg h, int_wrap_add, ih]
      have hle := scan_stop_le xml n
      congr 2
      omega

/-- The second loop counts, in an `int`, the newline bytes at the offsets
`1, ..., j`. -/
theorem raise_error_line_eq (xml : List Byte) (j : Nat) (xline : Int) :
    raise_error_line xml j (int_wrap xline) =
      int_wrap (xline + (newlines_from_one xml j : Int)) := by
  induction j generalizing xline with
  | zero => simp [raise_error_line, newlines_from_one]
  | succ n ih =>
    unfold raise_error_line newlines_from_one
    by_cases h : peek xml (n + 1) = NL
    · rw [if_pos h.symm, if_pos h, int_wrap_add, ih]
      congr 1
      omega
    · rw [if_neg (fun hc => h hc.symm), if_neg h, ih]
      simp

/-- What `_oj_raise_error` reports for every buffer and offset: the column
is one more than the distance to where the back-scan stopped, the line one
more than the number of newlines from there down to offset 1, each counted in
an `int`. -/
theorem raise_error_position (msg : String) (xml : List Byte) (k : Nat) (file : String)
    (line : Int) :
    _oj_raise_error msg xml k file line =
      Raise.rb_eSyntaxError msg
        (int_wrap (1 + (newlines_from_one xml (scan_stop xml k) : Int)))
        (int_wrap (1 + ((k - scan_stop xml k : Nat) : Int))) file line := by
  unfold _oj_raise_error
  have h1 : (1 : Int) = int_wrap 1 := by decide
  simp only []
  rw [h1, raise_error_col_eq]
  simp only []
  rw [raise_error_line_eq]
  simp only [int_wrap_add]

/-- Claim C4, evaluated where it fails.  In the two-byte buffer of a newline
followed by a closing brace the failure offset 1 lies on line 2: one newline
byte is found from offset 0 up to offset 1, under either reading of "up to".
The SyntaxError reports line 1: the second loop stops before it has looked at
offset 0. -/
theorem raise_error_line_skips_first_byte (msg file : String) (line : Int) :
    (_oj_raise_error msg [NL, 125] 1 file line).xline = 1 ∧
    1 + newlines_before [NL, 125] 1 = 2 ∧
    1 + newlines_through [NL, 125] 1 = 2 :=
  ⟨rfl, rfl, rfl⟩

/-- Claim C5, evaluated where it fails.  In the buffer of an opening bracket,
a newline and a closing brace the failure offset 2 is the first byte after
the newline at offset 1, column `2 - 1 = 1` by the claim.  The SyntaxError
reports column 2. -/
theorem raise_error_col_after_newline (msg file : String) (line : Int) :
    (_oj_raise_error msg [91, NL, 125] 2 file line).col = 2 ∧
    last_newline_before [91, NL, 125] 2 = some 1 ∧
    claimed_col [91, NL, 125] 2 = 1 :=
  ⟨rfl, rfl, rfl⟩

theorem peek_ne_NL (xml : List Byte) (h : ∀ b ∈ xml, b ≠ NL) (i : Nat) : NL ≠ peek xml i := by
  unfold peek
  intro hc
  by_cases hi : i < xml.length
  · rw [List.getD_eq_getElem xml 0 hi] at hc
    exact h _ (List.getElem_mem hi) hc.symm
  · rw [List.getD_eq_default xml 0 (by omega)] at hc
    revert hc
    decide

/-- Without a newline byte in the buffer the back-scan runs down to offset 0. -/
theorem scan_stop_no_newline (xml : List Byte) (h : ∀ b ∈ xml, b ≠ NL) (k : Nat) :
    scan_stop xml k = 0 := by
  induction k with
  | zero => rfl
  | succ n ih =>
    unfold scan_stop
    rw [if_neg (fun hc => peek_ne_NL xml h (n + 1) hc.symm), ih]

/-- Without a newline byte in the buffer the report is line 1 and the column
`k + 1` as an `int` holds it. -/
theorem raise_error_wrapped_col (msg : String) (xml : List Byte) (k : Nat)
    (file : String) (line : Int) (h : ∀ b ∈ xml, b ≠ NL) :
    _oj_raise_error msg xml k file line =
      Raise.rb_eSyntaxError msg 1 (int_wrap ((k : Int) + 1)) file line := by
  rw [raise_error_position, scan_stop_no_newline xml h]
  have h1 : int_wrap (1 + ((newlines_from_one xml 0 : Nat) : Int)) = 1 := by
    simp only [newlines_from_one]
    decide
  rw [h1, Nat.sub_zero, Int.add_comm]

/-- Claim C6, evaluated where it fails.  A buffer of `INT_MAX` spaces holds
no newline byte, and the offset `INT_MAX` of its terminating NUL lies within
it.  The claim gives column `INT_MAX + 1`; the `int` that counts the column
has wrapped, and the SyntaxError reports column `INT_MIN`. -/
theorem raise_error_col_wraps_counterexample :
    (∀ b ∈ List.replicate 2147483647 (32 : Byte), b ≠ NL) ∧
    2147483647 ≤ (List.replicate 2147483647 (32 : Byte)).length ∧
    _oj_raise_error "unexpected character" (List.replicate 2147483647 32) 2147483647
      "load.c" 100 =
      Raise.rb_eSyntaxError "unexpected character" 1 (-2147483648) "load.c" 100 ∧
    ((2147483647 : Nat) : Int) + 1 ≠ -2147483648 := by
  have hn : ∀ b ∈ List.replicate 2147483647 (32 : Byte), b ≠ NL := by
    intro b hb
    rw [List.eq_of_mem_replicate hb]
    decide
  refine ⟨hn, ?_, ?_, by decide⟩
  · rw [List.length_replicate]
  · rw [raise_error_wrapped_col _ _ _ _ _ hn]
    rfl

/-- Claim C6, amended.  For a buffer without a newline byte and a failure
offset `k` within it, the offset of the terminating NUL included, with
`k + 1` no more than `INT_MAX`, `_oj_raise_error` raises the SyntaxError with
line 1 and column `k + 1`. -/
theorem raise_error_no_newline (msg : String) (xml : List Byte) (k : Nat) (file : String)
    (line : Int) (h : ∀ b ∈ xml, b ≠ NL) (_hk : k ≤ xml.length) (hmax : k + 1 ≤ 2147483647) :
    _oj_raise_error msg xml k file line =
      Raise.rb_eSyntaxError msg 1 ((k : Int) + 1) file line := by
  rw [raise_error_wrapped_col msg xml k file line h,
    int_wrap_of_range ((k : Int) + 1) (by omega) (by omega)]

/-- Claim C6 on the truncated text `{"a":` with the failure at offset 5,
right after the colon: line 1, column 6. -/
theorem raise_error_no_newline_witness :
    (∀ b ∈ truncated_doc, b ≠ NL) ∧ 5 ≤ truncated_doc.length ∧ 5 + 1 ≤ 2147483647 ∧
    _oj_raise_error "unexpected character" truncated_doc 5 "load.c" 100 =
      Raise.rb_eSyntaxError "unexpected character" 1 6 "load.c" 100 :=
  ⟨by simp [truncated_doc, NL], by simp [truncated_doc], by decide,
   raise_error_no_newline "unexpected character" truncated_doc 5 "load.c" 100
     (by simp [truncated_doc, NL]) (by simp [truncated_doc]) (by decide)⟩

/-! ### The format strings of `mimic_generate_core` -/

theorem is_format_value_cases (v : VALUE) (h : is_format_value v = true) :
    v = VALUE.Qnil ∨ ∃ s e, v = VALUE.String s e := by
  cases v <;> simp_all [is_format_value]

/-- The `Options` left by `mimic_generate_core` are those its option block
leaves, whatever the writer does. -/
theorem mimic_generate_core_snd (env : Env) (w : VALUE → Options → Option (List Byte))
    (argv : List VALUE) (copts : Options) :
    (mimic_generate_core env w argv copts).2 = (mimic_generate_core_opts argv copts).2 := by
  unfold mimic_generate_core
  rcases mimic_generate_core_opts argv copts with ⟨x, c⟩
  cases x with
  | raise e => rfl
  | ret a =>
    simp only [Exec.andThen]
    cases w (argv.getD 0 VALUE.Qnil) c <;> rfl

/-- On a Hash whose five format keys hold Strings or `nil`, the option block
does not raise and overlays the format strings key by key. -/
theorem mimic_generate_core_opts_overlaid (obj : VALUE) (c : Bool) (ifnone : VALUE)
    (tbl : List (VALUE × VALUE)) (copts : Options)
    (hv : ∀ key ∈ format_keys,
      is_format_value (rb_hash_lookup (VALUE.Hash c ifnone tbl) key) = true) :
    (mimic_generate_core_opts [obj, VALUE.Hash c ifnone tbl] copts).1 = Exec.ret () ∧
    formats_overlaid (VALUE.Hash c ifnone tbl) copts.dump_opts_struct
      (mimic_generate_core_opts [obj, VALUE.Hash c ifnone tbl] copts).2.dump_opts_struct := by
  have h1 := is_format_value_cases _ (hv indent_sym (by simp [format_keys]))
  have h2 := is_format_value_cases _ (hv space_sym (by simp [format_keys]))
  have h3 := is_format_value_cases _ (hv space_before_sym (by simp [format_keys]))
  have h4 := is_format_value_cases _ (hv object_nl_sym (by simp [format_keys]))
  have h5 := is_format_value_cases _ (hv array_nl_sym (by simp [format_keys]))
  rcases h1 with h1 | ⟨s1, e1, h1⟩ <;> rcases h2 with h2 | ⟨s2, e2, h2⟩ <;>
  rcases h3 with h3 | ⟨s3, e3, h3⟩ <;> rcases h4 with h4 | ⟨s4, e4, h4⟩ <;>
  rcases h5 with h5 | ⟨s5, e5, h5⟩ <;>
  simp [mimic_generate_core_opts, mimic_generate_core_key, VALUE.is_nil, rb_type, Exec.andThen,
    Exec.done, StringValuePtr, formats_overlaid, format_overlaid, h1, h2, h3, h4, h5,
    Options.dump_opts_struct]

theorem format_value_or_not (v : VALUE) :
    v = VALUE.Qnil ∨ (∃ s e, v = VALUE.String s e) ∨
    (is_format_value v = false ∧ v.is_nil = false ∧ rb_type v ≠ RType.T_STRING) := by
  cases v <;> simp [is_format_value, VALUE.is_nil, rb_type]
  split <;> simp

/-- One block of `mimic_generate_core` on a value that is neither `nil` nor a
String: the TypeError, and nothing stored. -/
theorem mimic_generate_core_key_bad (ropts key : VALUE)
    (store : DumpOpts → List Byte → Nat → DumpOpts) (copts : Options)
    (h : is_format_value (rb_hash_lookup ropts key) = false ∧
      (rb_hash_lookup ropts key).is_nil = false ∧
      rb_type (rb_hash_lookup ropts key) ≠ RType.T_STRING) :
    mimic_generate_core_key ropts key store copts = (Exec.raise Raise.rb_eTypeError, copts) := by
  unfold mimic_generate_core_key
  simp [h.2.1, h.2.2]

/-- One block of `mimic_generate_core` on `nil`: nothing stored. -/
theorem mimic_generate_core_key_nil (ropts key : VALUE)
    (store : DumpOpts → List Byte → Nat → DumpOpts) (copts : Options)
    (h : rb_hash_lookup ropts key = VALUE.Qnil) :
    mimic_generate_core_key ropts key store copts = (Exec.ret (), copts) := by
  unfold mimic_generate_core_key
  simp [h, VALUE.is_nil, Exec.done]

/-- One block of `mimic_generate_core` on a String: its buffer and the
`uint8_t` of its `strlen` stored. -/
theorem mimic_generate_core_key_string (ropts key : VALUE)
    (store : DumpOpts → List Byte → Nat → DumpOpts) (copts : Options) (s : List Byte)
    (e : rb_encoding) (h : rb_hash_lookup ropts key = VALUE.String s e) :
    mimic_generate_core_key ropts key store copts =
      (Exec.ret (), { copts with
        dump_opts := some (store copts.dump_opts_struct s (to_uint8 (strlen s))) }) := by
  unfold mimic_generate_core_key
  simp [h, VALUE.is_nil, rb_type, StringValuePtr, Exec.done]

set_option maxHeartbeats 4000000 in
/-- On every Hash the option block overlays the format strings key by key
until a value fails the type check, and raises the TypeError there. -/
theorem mimic_generate_core_opts_while_pass (obj : VALUE) (c : Bool) (ifnone : VALUE)
    (tbl : List (VALUE × VALUE)) (copts : Options) :
    formats_overlaid_while_pass (VALUE.Hash c ifnone tbl) copts.dump_opts_struct
      (mimic_generate_core_opts [obj, VALUE.Hash c ifnone tbl] copts).2.dump_opts_struct ∧
    ((∃ key ∈ format_keys,
        is_format_value (rb_hash_lookup (VALUE.Hash c ifnone tbl) key) = false) →
      (mimic_generate_core_opts [obj, VALUE.Hash c ifnone tbl] copts).1 =
        Exec.raise Raise.rb_eTypeError) := by
  have hopts : mimic_generate_core_opts [obj, VALUE.Hash c ifnone tbl] copts =
      Exec.andThen (mimic_generate_core_key (VALUE.Hash c ifnone tbl) indent_sym
        (fun o p n => { o with indent := some p, indent_size := n }) copts) fun copts =>
      Exec.andThen (mimic_generate_core_key (VALUE.Hash c ifnone tbl) space_sym
        (fun o p n => { o with after_sep := some p, after_size := n }) copts) fun copts =>
      Exec.andThen (mimic_generate_core_key (VALUE.Hash c ifnone tbl) space_before_sym
        (fun o p n => { o with before_sep := some p, before_size := n }) copts) fun copts =>
      Exec.andThen (mimic_generate_core_key (VALUE.Hash c ifnone tbl) object_nl_sym
        (fun o p n => { o with hash_nl := some p, hash_size := n }) copts) fun copts =>
      mimic_generate_core_key (VALUE.Hash c ifnone tbl) array_nl_sym
        (fun o p n => { o with array_nl := some p, array_size := n }) copts := by
    simp [mimic_generate_core_opts, VALUE.is_nil, rb_type]
  rw [hopts]
  have fin : ∀ (P : Nat → Prop), P 0 → P 1 → P 2 → P 3 → P 4 → ∀ i, i < 5 → P i := by
    intro P h0 h1 h2 h3 h4 i hi
    interval_cases i <;> assumption
  have fnil : is_format_value VALUE.Qnil = true := rfl
  have fstr : ∀ s e, is_format_value (VALUE.String s e) = true := fun _ _ => rfl
  rcases format_value_or_not (rb_hash_lookup (VALUE.Hash c ifnone tbl) indent_sym)
    with h1 | ⟨s1, e1, h1⟩ | h1
  all_goals first
    | (rw [mimic_generate_core_key_bad _ _ _ _ h1, andThen_raise]
       (refine ⟨fin _ ?_ ?_ ?_ ?_ ?_, ?_⟩ <;>
        simp [format_keys_pass, format_keys, DumpOpts.format, format_overlaid,
          fnil, fstr, Options.dump_opts_struct, *]))
    | rw [mimic_generate_core_key_nil _ _ _ _ h1, andThen_ret]
    | rw [mimic_generate_core_key_string _ _ _ _ _ _ h1, andThen_ret]
  all_goals
    rcases format_value_or_not (rb_hash_lookup (VALUE.Hash c ifnone tbl) space_sym)
      with h2 | ⟨s2, e2, h2⟩ | h2
  all_goals first
    | (rw [mimic_generate_core_key_bad _ _ _ _ h2, andThen_raise]
       (refine ⟨fin _ ?_ ?_ ?_ ?_ ?_, ?_⟩ <;>
        simp [format_keys_pass, format_keys, DumpOpts.format, format_overlaid,
          fnil, fstr, Options.dump_opts_struct, *]))
    | rw [mimic_generate_core_key_nil _ _ _ _ h2, andThen_ret]
    | rw [mimic_generate_core_key_string _ _ _ _ _ _ h2, andThen_ret]
  all_goals
    rcases format_value_or_not (rb_hash_lookup (VALUE.Hash c ifnone tbl) space_before_sym)
      with h3 | ⟨s3, e3, h3⟩ | h3
  all_goals first
    | (rw [mimic_generate_core_key_bad _ _ _ _ h3, andThen_raise]
       (refine ⟨fin _ ?_ ?_ ?_ ?_ ?_, ?_⟩ <;>
        simp [format_keys_pass, format_keys, DumpOpts.format, format_overlaid,
          fnil, fstr, Options.dump_opts_struct, *]))
    | rw [mimic_generate_core_key_nil _ _ _ _ h3, andThen_ret]
    | rw [mimic_generate_core_key_string _ _ _ _ _ _ h3, andThen_ret]
  all_goals
    rcases format_value_or_not (rb_hash_lookup (VALUE.Hash c ifnone tbl) object_nl_sym)
      with h4 | ⟨s4, e4, h4⟩ | h4
  all_goals first
    | (rw [mimic_generate_core_key_bad _ _ _ _ h4, andThen_raise]
       (refine ⟨fin _ ?_ ?_ ?_ ?_ ?_, ?_⟩ <;>
        simp [format_keys_pass, format_keys, DumpOpts.format, format_overlaid,
          fnil, fstr, Options.dump_opts_struct, *]))
    | rw [mimic_generate_core_key_nil _ _ _ _ h4, andThen_ret]
    | rw [mimic_generate_core_key_string _ _ _ _ _ _ h4, andThen_ret]
  all_goals
    rcases format_value_or_not (rb_hash_lookup (VALUE.Hash c ifnone tbl) array_nl_sym)
      with h5 | ⟨s5, e5, h5⟩ | h5
  all_goals first
    | (rw [mimic_generate_core_key_bad _ _ _ _ h5]
       (refine ⟨fin _ ?_ ?_ ?_ ?_ ?_, ?_⟩ <;>
        simp [format_keys_pass, format_keys, DumpOpts.format, format_overlaid,
          fnil, fstr, Options.dump_opts_struct, *]))
    | (rw [mimic_generate_core_key_nil _ _ _ _ h5]
       (refine ⟨fin _ ?_ ?_ ?_ ?_ ?_, ?_⟩ <;>
        simp [format_keys_pass, format_keys, DumpOpts.format, format_overlaid,
          fnil, fstr, Options.dump_opts_struct, *]))
    | (rw [mimic_generate_core_key_string _ _ _ _ _ _ h5]
       (refine ⟨fin _ ?_ ?_ ?_ ?_ ?_, ?_⟩ <;>
        simp [format_keys_pass, format_keys, DumpOpts.format, format_overlaid,
          fnil, fstr, Options.dump_opts_struct, *]))

/-- Once its option block has returned, `mimic_generate_core` raises nothing
but the NoMemError for a writer that returned a null pointer. -/
theorem mimic_generate_core_raise (env : Env) (w : VALUE → Options → Option (List Byte))
    (argv : List VALUE) (copts : Options) (h : (mimic_generate_core_opts argv copts).1 = Exec.ret ())
    (e : Raise) (he : (mimic_generate_core env w argv copts).1 = Exec.raise e) :
    e = Raise.rb_eNoMemError "Not enough memory.\n" := by
  unfold mimic_generate_core at he
  rcases hO : mimic_generate_core_opts argv copts with ⟨x, c⟩
  rw [hO] at h he
  simp only at h
  subst h
  rw [andThen_ret] at he
  cases hw : w (argv.getD 0 VALUE.Qnil) c with
  | none =>
    rw [hw] at he
    simp only [Exec.raise.injEq] at he
    exact he.symm
  | some json =>
    rw [hw] at he
    simp at he

theorem strlen_no_nul (s : List Byte) (h : ∀ b ∈ s, b ≠ 0) : strlen s = s.length := by
  unfold strlen cstr
  rw [List.takeWhile_eq_self_iff.2]
  intro b hb
  simp [h b hb]

theorem size_stored_of_overlaid (v : VALUE) (before : Option (List Byte) × Nat)
    (p : Option (List Byte)) (n : Nat) (h : format_overlaid v before (p, n)) :
    size_stored v n := by
  intro s e hs
  have h2 := h.1 s e hs
  simp only [Prod.mk.injEq, to_uint8] at h2
  refine ⟨h2.2, fun hnul hlen => ?_⟩
  rw [h2.2, strlen_no_nul s hnul, Nat.mod_eq_of_lt hlen]

/-- Claim C7 refuted.  A String of 256 spaces given as `:indent` is stored
with `indent_size` 0, and the three-byte String space, NUL, space given as
`:space` is stored with `after_size` 1. -/
theorem format_size_truncated_counterexample :
    long_indent.length = 256 ∧
    (mimic_generate_core ruby19 null_writer
      [VALUE.Array [], hash_of [(indent_sym, VALUE.String long_indent 0)]]
      started).2.dump_opts_struct.indent_size = 0 ∧
    nul_inside.length = 3 ∧
    (mimic_generate_core ruby19 null_writer
      [VALUE.Array [], hash_of [(space_sym, VALUE.String nul_inside 0)]]
      started).2.dump_opts_struct.after_size = 1 := by
  have hlen : long_indent.length = 256 := List.length_replicate 256 32
  have hnul : ∀ b ∈ long_indent, b ≠ 0 := by
    intro b hb
    rw [List.eq_of_mem_replicate hb]
    decide
  refine ⟨hlen, ?_, rfl, rfl⟩
  have hv : ∀ key ∈ format_keys, is_format_value
      (rb_hash_lookup (VALUE.Hash true VALUE.Qnil [(indent_sym, VALUE.String long_indent 0)]) key)
        = true := by decide
  have h := (mimic_generate_core_opts_overlaid (VALUE.Array []) true VALUE.Qnil
    [(indent_sym, VALUE.String long_indent 0)] started hv).2.1.1 long_indent 0 rfl
  rw [mimic_generate_core_snd]
  simp only [Prod.mk.injEq] at h
  unfold hash_of
  rw [h.2, to_uint8, strlen_no_nul long_indent hnul, hlen]

/-- Claim C7 as amended.  For an options Hash whose five format keys hold
Strings or `nil`, the size `mimic_generate_core` stores next to each String
is the length of the C string in its buffer (the bytes before the first NUL)
modulo 256; it is the number of bytes of the String whenever the String has
fewer than 256 bytes and no NUL among them.  Each string preset by
`mimic_pretty_generate` is stored with its number of bytes. -/
theorem format_size_stored (env : Env) (w : VALUE → Options → Option (List Byte))
    (obj : VALUE) (c : Bool) (ifnone : VALUE) (tbl : List (VALUE × VALUE)) (copts : Options)
    (hv : ∀ key ∈ format_keys,
      is_format_value (rb_hash_lookup (VALUE.Hash c ifnone tbl) key) = true) :
    (size_stored (rb_hash_lookup (VALUE.Hash c ifnone tbl) indent_sym)
      (mimic_generate_core env w [obj, VALUE.Hash c ifnone tbl]
        copts).2.dump_opts_struct.indent_size ∧
     size_stored (rb_hash_lookup (VALUE.Hash c ifnone tbl) space_sym)
      (mimic_generate_core env w [obj, VALUE.Hash c ifnone tbl]
        copts).2.dump_opts_struct.after_size ∧
     size_stored (rb_hash_lookup (VALUE.Hash c ifnone tbl) space_before_sym)
      (mimic_generate_core env w [obj, VALUE.Hash c ifnone tbl]
        copts).2.dump_opts_struct.before_size ∧
     size_stored (rb_hash_lookup (VALUE.Hash c ifnone tbl) object_nl_sym)
      (mimic_generate_core env w [obj, VALUE.Hash c ifnone tbl]
        copts).2.dump_opts_struct.hash_size ∧
     size_stored (rb_hash_lookup (VALUE.Hash c ifnone tbl) array_nl_sym)
      (mimic_generate_core env w [obj, VALUE.Hash c ifnone tbl]
        copts).2.dump_opts_struct.array_size) ∧
    (pretty_dump_opts.indent = some two_spaces ∧
     pretty_dump_opts.indent_size = two_spaces.length ∧
     pretty_dump_opts.before_sep = some one_space ∧
     pretty_dump_opts.before_size = one_space.length ∧
     pretty_dump_opts.after_sep = some one_space ∧
     pretty_dump_opts.after_size = one_space.length ∧
     pretty_dump_opts.hash_nl = some newline ∧
     pretty_dump_opts.hash_size = newline.length ∧
     pretty_dump_opts.array_nl = some newline ∧
     pretty_dump_opts.array_size = newline.length) := by
  obtain ⟨_, h1, h2, h3, h4, h5⟩ := mimic_generate_core_opts_overlaid obj c ifnone tbl copts hv
  rw [mimic_generate_core_snd]
  exact ⟨⟨size_stored_of_overlaid _ _ _ _ h1, size_stored_of_overlaid _ _ _ _ h2,
    size_stored_of_overlaid _ _ _ _ h3, size_stored_of_overlaid _ _ _ _ h4,
    size_stored_of_overlaid _ _ _ _ h5⟩, rfl, rfl, rfl, rfl, rfl, rfl, rfl, rfl, rfl, rfl⟩

/-- Claim C7 as amended, on the options `:indent` a tab and `:object_nl`
carriage return and line feed: the sizes stored are 1 and 2. -/
theorem format_size_stored_witness :
    (∀ key ∈ format_keys, is_format_value (rb_hash_lookup (VALUE.Hash true VALUE.Qnil
      [(indent_sym, VALUE.String [9] 0), (object_nl_sym, VALUE.String [13, 10] 0)]) key)
        = true) ∧
    (mimic_generate_core ruby19 null_writer [VALUE.Array [], VALUE.Hash true VALUE.Qnil
      [(indent_sym, VALUE.String [9] 0), (object_nl_sym, VALUE.String [13, 10] 0)]]
      started).2.dump_opts_struct.indent_size = 1 ∧
    (mimic_generate_core ruby19 null_writer [VALUE.Array [], VALUE.Hash true VALUE.Qnil
      [(indent_sym, VALUE.String [9] 0), (object_nl_sym, VALUE.String [13, 10] 0)]]
      started).2.dump_opts_struct.hash_size = 2 :=
  have h := format_size_stored ruby19 null_writer (VALUE.Array []) true VALUE.Qnil
    [(indent_sym, VALUE.String [9] 0), (object_nl_sym, VALUE.String [13, 10] 0)] started
    (by decide)
  ⟨by decide,
   (h.1.1 [9] 0 rfl).2 (by simp) (by simp),
   (h.1.2.2.2.1 [13, 10] 0 rfl).2 (by simp) (by simp)⟩

/-- Claim C10 refuted.  With a tab for `:indent` and the integer 5 for
`:space` the call raises the TypeError of `rb_check_type`: `:space` is present
with a value that is not `nil`, and the separator after a colon has not been
replaced; it is still null, with size 0, while the indent before it has been
stored. -/
theorem format_string_type_error_counterexample :
    (mimic_generate_core ruby19 null_writer [VALUE.Array [], bad_space_opts] started).1 =
      Exec.raise Raise.rb_eTypeError ∧
    rb_hash_lookup bad_space_opts space_sym = VALUE.Integer 5 ∧
    (mimic_generate_core ruby19 null_writer [VALUE.Array [], bad_space_opts]
      started).2.dump_opts_struct.after_sep = none ∧
    (mimic_generate_core ruby19 null_writer [VALUE.Array [], bad_space_opts]
      started).2.dump_opts_struct.after_size = 0 ∧
    (mimic_generate_core ruby19 null_writer [VALUE.Array [], bad_space_opts]
      started).2.dump_opts_struct.indent = some [9] :=
  ⟨rfl, rfl, rfl, rfl, rfl⟩

/-- Claim C10, amended.  For every options Hash `mimic_generate_core` takes
the five keys in the order `:indent`, `:space`, `:space_before`,
`:object_nl`, `:array_nl`: a String replaces the format string of its key and
the size, `nil` leaves them as they were before the call, and any other value
raises the TypeError of `rb_check_type` and leaves the format string of its
key and of every later key as they were.  So on a Hash whose five keys hold
Strings or `nil` a format string and its size are replaced exactly when the
key holds a String, every other one is kept, and the call raises nothing
unless the writer runs out of memory.  Before the call the format strings are
the presets (two spaces, a space, a space, a newline, a newline) when the
call comes from `mimic_pretty_generate`, and null with size 0 when it comes
from `mimic_generate`, the defaults having no dump options. -/
theorem format_strings_independent (env : Env) (w : VALUE → Options → Option (List Byte))
    (obj : VALUE) (c : Bool) (ifnone : VALUE) (tbl : List (VALUE × VALUE))
    (copts d : Options) :
    formats_overlaid_while_pass (VALUE.Hash c ifnone tbl) copts.dump_opts_struct
      (mimic_generate_core env w [obj, VALUE.Hash c ifnone tbl] copts).2.dump_opts_struct ∧
    ((∃ key ∈ format_keys,
        is_format_value (rb_hash_lookup (VALUE.Hash c ifnone tbl) key) = false) →
      (mimic_generate_core env w [obj, VALUE.Hash c ifnone tbl] copts).1 =
        Exec.raise Raise.rb_eTypeError) ∧
    ((∀ key ∈ format_keys,
        is_format_value (rb_hash_lookup (VALUE.Hash c ifnone tbl) key) = true) →
      formats_overlaid (VALUE.Hash c ifnone tbl) copts.dump_opts_struct
        (mimic_generate_core env w [obj, VALUE.Hash c ifnone tbl] copts).2.dump_opts_struct ∧
      ∀ e, (mimic_generate_core env w [obj, VALUE.Hash c ifnone tbl] copts).1 = Exec.raise e →
        e = Raise.rb_eNoMemError "Not enough memory.\n") ∧
    (mimic_pretty_generate env w [obj, VALUE.Hash c ifnone tbl] d =
      (mimic_generate_core env w [obj, VALUE.Hash c ifnone tbl]
        { d with dump_opts := some pretty_dump_opts }).1 ∧
     Options.dump_opts_struct { d with dump_opts := some pretty_dump_opts } =
      { indent := some [32, 32], indent_size := 2,
        before_sep := some [32], before_size := 1,
        after_sep := some [32], after_size := 1,
        hash_nl := some [10], hash_size := 1,
        array_nl := some [10], array_size := 1 }) ∧
    (mimic_generate env w [obj, VALUE.Hash c ifnone tbl] d =
      (mimic_generate_core env w [obj, VALUE.Hash c ifnone tbl] d).1 ∧
     (d.dump_opts = none → d.dump_opts_struct =
      { indent := none, indent_size := 0,
        before_sep := none, before_size := 0,
        after_sep := none, after_size := 0,
        hash_nl := none, hash_size := 0,
        array_nl := none, array_size := 0 })) := by
  refine ⟨?_, ?_, ?_, ⟨rfl, rfl⟩, rfl, ?_⟩
  · rw [mimic_generate_core_snd]
    exact (mimic_generate_core_opts_while_pass obj c ifnone tbl copts).1
  · intro hbad
    have h := (mimic_generate_core_opts_while_pass obj c ifnone tbl copts).2 hbad
    unfold mimic_generate_core
    rcases hO : mimic_generate_core_opts [obj, VALUE.Hash c ifnone tbl] copts with ⟨x, c2⟩
    rw [hO] at h
    simp only at h
    subst h
    rfl
  · intro hv
    refine ⟨?_, ?_⟩
    · rw [mimic_generate_core_snd]
      exact (mimic_generate_core_opts_overlaid obj c ifnone tbl copts hv).2
    · exact mimic_generate_core_raise env w _ copts
        (mimic_generate_core_opts_overlaid obj c ifnone tbl copts hv).1
  · intro h
    unfold Options.dump_opts_struct
    rw [h]
    rfl

/-- Claim C10 on `pretty_generate` with the options `:space` empty and
`:array_nl` a carriage return, the other three keys absent. -/
theorem format_strings_independent_witness :
    (∀ key ∈ format_keys, is_format_value (rb_hash_lookup (VALUE.Hash true VALUE.Qnil
      [(space_sym, VALUE.String [] 0), (array_nl_sym, VALUE.String [13] 0)]) key) = true) ∧
    formats_overlaid (VALUE.Hash true VALUE.Qnil
        [(space_sym, VALUE.String [] 0), (array_nl_sym, VALUE.String [13] 0)])
      (Options.dump_opts_struct { started with dump_opts := some pretty_dump_opts })
      (mimic_generate_core ruby19 null_writer [VALUE.Array [], VALUE.Hash true VALUE.Qnil
        [(space_sym, VALUE.String [] 0), (array_nl_sym, VALUE.String [13] 0)]]
        { started with dump_opts := some pretty_dump_opts }).2.dump_opts_struct :=
  ⟨by decide,
   ((format_strings_independent ruby19 null_writer (VALUE.Array []) true VALUE.Qnil
    [(space_sym, VALUE.String [] 0), (array_nl_sym, VALUE.String [13] 0)]
    { started with dump_opts := some pretty_dump_opts } started).2.2.1 (by decide)).1⟩

/-! ### The tri-state defaults -/

/-- The part of claim C8 the code keeps: `true` and `false` are stored by
`set_def_opts` and read back by `get_def_opts`, for each of the four keys and
every prior state of the defaults. -/
theorem tristate_true_false_read_back (env : Env) (d : Options) (o : YesNoOpt) (ho : o ∈ ynos)
    (b : Bool) :
    (set_def_opts env (hash_of [(o.sym, bool_value b)]) d).1 = Exec.ret VALUE.Qnil ∧
    rb_hash_lookup (get_def_opts env (set_def_opts env (hash_of [(o.sym, bool_value b)]) d).2)
      o.sym = bool_value b := by
  simp only [ynos, List.mem_cons, List.mem_singleton, List.not_mem_nil, or_false] at ho
  rcases ho with rfl | rfl | rfl | rfl <;> cases b <;> cases hE : env.HAVE_RUBY_ENCODING_H <;>
    cases hm : d.mode <;>
    simp [set_def_opts, hash_of, rb_type, set_def_opts_encoding, set_def_opts_indent,
      set_def_opts_mode, set_def_opts_ynos, ynos, Exec.andThen, Exec.done, has_key, VALUE.tbl,
      st_lookup, same_symbol, rb_hash_lookup, rb_hash_aref, VALUE.is_nil, VALUE.is_true,
      VALUE.is_false, bool_value, circular_sym, auto_define_sym, symbol_keys_sym,
      ascii_only_sym, encoding_sym, indent_sym, mode_sym, Options.store, get_def_opts,
      rb_hash_new, rb_hash_aset, st_insert, yes_no_value, hE, hm, strict_sym, compat_sym,
      null_sym, object_sym]

/-- A call of `set_def_opts` with one of the four keys bound to `nil` returns
and leaves the defaults as they were. -/
theorem tristate_nil_stores_nothing (env : Env) (d : Options) (o : YesNoOpt) (ho : o ∈ ynos) :
    set_def_opts env (hash_of [(o.sym, VALUE.Qnil)]) d = (Exec.ret VALUE.Qnil, d) := by
  simp only [ynos, List.mem_cons, List.mem_singleton, List.not_mem_nil, or_false] at ho
  rcases ho with rfl | rfl | rfl | rfl <;> cases hE : env.HAVE_RUBY_ENCODING_H <;>
    simp [set_def_opts, hash_of, rb_type, set_def_opts_encoding, set_def_opts_indent,
      set_def_opts_mode, set_def_opts_ynos, ynos, Exec.andThen, Exec.done, has_key, VALUE.tbl,
      st_lookup, same_symbol, rb_hash_lookup, rb_hash_aref, VALUE.is_nil, VALUE.is_true,
      VALUE.is_false, circular_sym, auto_define_sym, symbol_keys_sym,
      ascii_only_sym, encoding_sym, indent_sym, mode_sym, hE]

/-- Claim C8, evaluated where it fails.  On a process that has just loaded
the extension, `Oj.default_options = {:circular => nil}` returns `nil`
without raising, and the hash `Oj.default_options` then returns maps
`:circular` to `false`, not to `nil`: the loop of `set_def_opts` finds the
key, reads `nil` and stores nothing. -/
theorem set_def_opts_nil_keeps_tristate :
    (set_def_opts ruby19 (hash_of [(circular_sym, VALUE.Qnil)]) started).1
      = Exec.ret VALUE.Qnil ∧
    rb_hash_lookup
      (get_def_opts ruby19
        (set_def_opts ruby19 (hash_of [(circular_sym, VALUE.Qnil)]) started).2)
      circular_sym = VALUE.Qfalse :=
  ⟨rfl, rfl⟩

/-! ### The `:mode` key -/

/-- A buffer without a NUL byte is the C string it holds. -/
theorem cstr_no_nul (s : List Byte) (h : ∀ b ∈ s, b ≠ 0) : cstr s = s := by
  unfold cstr
  rw [List.takeWhile_eq_self_iff]
  intro b hb
  simp [h b hb]

/-- For a String, `load_with_opts` hands the parser the bytes before the first
NUL of the String, then a NUL. -/
theorem load_with_opts_string (env : Env) (oj_parse : List Byte → Options → Exec VALUE)
    (copts : Options) (s : List Byte) (e : rb_encoding) :
    load_with_opts env oj_parse (VALUE.String s e) copts = oj_parse (cstr s ++ [0]) copts := by
  simp [load_with_opts, rb_type, strcpy, StringValuePtr]

/-- For a StringIO, `load_with_opts` hands the parser the bytes before the
first NUL of its `string`, then a NUL. -/
theorem load_with_opts_stringio (env : Env) (oj_parse : List Byte → Options → Exec VALUE)
    (copts : Options) (o : RObject) (h : o.is_stringio = true) :
    load_with_opts env oj_parse (VALUE.Object o) copts =
      oj_parse (cstr o.string ++ [0]) copts := by
  simp [load_with_opts, rb_type, rb_obj_class, strcpy, h]

/-- For an object that is read through `read` (no StringIO, and `fileno`
missing or `nil`), `load_with_opts` hands the parser the bytes before the first
NUL of what `read` returned, then a NUL. -/
theorem load_with_opts_read (env : Env) (oj_parse : List Byte → Options → Exec VALUE)
    (copts : Options) (o : RObject) (s : List Byte) (h : o.is_stringio = false)
    (hf : o.fileno = none ∨ o.fileno = some none) (hr : o.read = some s) :
    load_with_opts env oj_parse (VALUE.Object o) copts = oj_parse (cstr s ++ [0]) copts := by
  rcases hf with hf | hf <;> simp [load_with_opts, rb_type, rb_obj_class, strcpy, h, hf, hr]

/-- Claim C11 refuted.  For the four-byte String `[`, NUL, `]`, `]` the
buffer the parser is handed holds `[` and a NUL: the copy made by `strcpy`
ends at the first NUL of the String, it is not the String's bytes followed
by a NUL. -/
theorem load_truncates_at_nul_counterexample :
    load_with_opts ruby19 echo_parse (VALUE.String [91, 0, 93, 93] 0) started =
      Exec.ret (VALUE.String [91, 0] 0) ∧
    ¬ (load_with_opts ruby19 echo_parse (VALUE.String [91, 0, 93, 93] 0) started =
      echo_parse ([91, 0, 93, 93] ++ [0]) started) := by
  refine ⟨rfl, ?_⟩
  rw [show load_with_opts ruby19 echo_parse (VALUE.String [91, 0, 93, 93] 0) started =
      Exec.ret (VALUE.String [91, 0] 0) from rfl]
  simp [echo_parse]

/-- Claim C11 as amended.  For a string `s` without a NUL byte, given as a
String, as the `string` of a StringIO or as what `read` returns on an object
read through `read`, the buffer `load_with_opts` passes to `oj_parse` holds
the bytes of `s`, all of them and in order, followed by one NUL, and so it
does under `load`; the parser is handed this buffer and the options, nothing
of the caller's string.  For every String the buffer holds the bytes before
its first NUL, followed by one NUL. -/
theorem load_copies_whole_document (env : Env) (oj_parse : List Byte → Options → Exec VALUE)
    (copts d : Options) (s : List Byte) (e : rb_encoding) (o : RObject)
    (h : ∀ b ∈ s, b ≠ 0) :
    load_with_opts env oj_parse (VALUE.String s e) copts = oj_parse (s ++ [0]) copts ∧
    (o.is_stringio = true → o.string = s →
      load_with_opts env oj_parse (VALUE.Object o) copts = oj_parse (s ++ [0]) copts) ∧
    (o.is_stringio = false → (o.fileno = none ∨ o.fileno = some none) → o.read = some s →
      load_with_opts env oj_parse (VALUE.Object o) copts = oj_parse (s ++ [0]) copts) ∧
    load env oj_parse [VALUE.String s e] d = (oj_parse (s ++ [0]) d, d) ∧
    (∀ t e2, load_with_opts env oj_parse (VALUE.String t e2) copts =
      oj_parse (cstr t ++ [0]) copts) := by
  refine ⟨?_, ?_, ?_, ?_, fun t e2 => load_with_opts_string env oj_parse copts t e2⟩
  · rw [load_with_opts_string, cstr_no_nul s h]
  · intro h1 h2
    rw [load_with_opts_stringio env oj_parse copts o h1, h2, cstr_no_nul s h]
  · intro h1 h2 h3
    rw [load_with_opts_read env oj_parse copts o s h1 h2 h3, cstr_no_nul s h]
  · unfold load
    simp only []
    rw [load_with_opts_string, cstr_no_nul s h]

/-- Claim C11 as amended, on the document `[1]`: the parser is handed the
four bytes `[`, `1`, `]`, NUL. -/
theorem load_copies_whole_document_witness :
    (∀ b ∈ small_doc, b ≠ 0) ∧
    load_with_opts ruby19 echo_parse (VALUE.String small_doc 1) started =
      Exec.ret (VALUE.String [91, 49, 93, 0] 0) :=
  ⟨by simp [small_doc],
   (load_copies_whole_document ruby19 echo_parse started started small_doc 1
     ⟨false, [], none, none⟩ (by simp [small_doc])).1⟩

/-! ### What a raise of `set_def_opts` leaves behind -/

/-- The value `get_def_opts` returns is a Hash. -/
theorem get_def_opts_type (env : Env) (d : Options) :
    rb_type (get_def_opts env d) = RType.T_HASH := by
  cases hE : env.HAVE_RUBY_ENCODING_H <;> cases hm : d.mode <;>
    simp [get_def_opts, hE, hm, rb_hash_new, rb_hash_aset, rb_type]

/-- The hash of `get_def_opts` has the key `:encoding` exactly under the encoding
header, bound to `nil` or to the Encoding object of the default encoding. -/
theorem get_def_opts_encoding (env : Env) (d : Options) :
    has_key (get_def_opts env d) encoding_sym = env.HAVE_RUBY_ENCODING_H ∧
    (env.HAVE_RUBY_ENCODING_H = true → rb_hash_lookup (get_def_opts env d) encoding_sym =
      match d.encoding with
      | none => VALUE.Qnil
      | some enc => VALUE.Encoding enc) := by
  cases hE : env.HAVE_RUBY_ENCODING_H <;> cases hm : d.mode <;> cases hc : d.encoding <;>
    simp [get_def_opts, hE, hm, hc, rb_hash_new, rb_hash_aset, has_key, VALUE.tbl, st_insert,
      st_lookup, same_symbol, rb_hash_lookup, encoding_sym, indent_sym, circular_sym,
      auto_define_sym, ascii_only_sym, symbol_keys_sym, mode_sym, rb_enc_from_encoding]

/-- The hash of `get_def_opts` binds `:indent` to the default indent. -/
theorem get_def_opts_indent (env : Env) (d : Options) :
    rb_hash_aref (get_def_opts env d) indent_sym = VALUE.Integer d.indent := by
  cases hE : env.HAVE_RUBY_ENCODING_H <;> cases hm : d.mode <;>
    simp [get_def_opts, hE, hm, rb_hash_new, rb_hash_aset, has_key, VALUE.tbl, st_insert,
      st_lookup, same_symbol, rb_hash_aref, encoding_sym, indent_sym, circular_sym,
      auto_define_sym, ascii_only_sym, symbol_keys_sym, mode_sym]

/-- The hash of `get_def_opts` binds `:mode` to the symbol of the default mode. -/
theorem get_def_opts_mode (env : Env) (d : Options) :
    rb_hash_lookup (get_def_opts env d) mode_sym = mode_symbol d.mode := by
  cases hE : env.HAVE_RUBY_ENCODING_H <;> cases hm : d.mode <;>
    simp [get_def_opts, hE, hm, rb_hash_new, rb_hash_aset, has_key, VALUE.tbl, st_insert,
      st_lookup, same_symbol, rb_hash_lookup, encoding_sym, indent_sym, circular_sym,
      auto_define_sym, ascii_only_sym, symbol_keys_sym, mode_sym, mode_symbol]

/-- The hash of `get_def_opts` binds each tri-state key to `true`, `false` or
`nil` according to its field. -/
theorem get_def_opts_yes_no (env : Env) (d : Options) (o : YesNoOpt) (ho : o ∈ ynos) :
    has_key (get_def_opts env d) o.sym = true ∧
    rb_hash_lookup (get_def_opts env d) o.sym = yes_no_value (d.fetch o.attr) := by
  simp only [ynos, List.mem_cons, List.mem_singleton, List.not_mem_nil, or_false] at ho
  rcases ho with rfl | rfl | rfl | rfl <;>
  cases hE : env.HAVE_RUBY_ENCODING_H <;> cases hm : d.mode <;>
    simp [get_def_opts, hE, hm, rb_hash_new, rb_hash_aset, has_key, VALUE.tbl, st_insert,
      st_lookup, same_symbol, rb_hash_lookup, encoding_sym, indent_sym, circular_sym,
      auto_define_sym, ascii_only_sym, symbol_keys_sym, mode_sym, Options.fetch]

/-- Storing into a field the value it holds changes nothing. -/
theorem store_fetch_self (d : Options) (a : YesNoAttr) : d.store a (d.fetch a) = d := by
  cases a <;> rfl

/-- On a hash that binds each key of the loop to the value of its field, the
tri-state loop of `set_def_opts` returns and changes nothing. -/
theorem set_def_opts_ynos_read_back (opts : VALUE) (d : Options) (l : List YesNoOpt)
    (h : ∀ o ∈ l, rb_hash_lookup opts o.sym = yes_no_value (d.fetch o.attr)) :
    set_def_opts_ynos opts l d = (Exec.ret (), d) := by
  induction l with
  | nil => rfl
  | cons o rest ih =>
    have ho := h o (List.mem_cons_self _ _)
    have ih2 := ih (fun o2 h2 => h o2 (List.mem_cons_of_mem _ h2))
    unfold set_def_opts_ynos
    simp only [ho]
    cases hf : d.fetch o.attr
    · have hs : d.store o.attr YesNo.Yes = d := by rw [← hf, store_fetch_self]
      simp [yes_no_value, VALUE.is_nil, VALUE.is_true, hs, ih2]
    · have hs : d.store o.attr YesNo.No = d := by rw [← hf, store_fetch_self]
      simp [yes_no_value, VALUE.is_nil, VALUE.is_true, VALUE.is_false, hs, ih2]
    · simp [yes_no_value, VALUE.is_nil, ih2]

/-- Claim C13.  For every state `d` of the defaults (mode any of the four,
each tri-state `Yes`, `No` or not set, encoding set or unset, indent any
`int`), `set_def_opts(get_def_opts())` returns `nil` without raising and
leaves every field of the defaults as it was. -/
theorem set_def_opts_of_get_def_opts (env : Env) (d : Options)
    (h : INT_MIN ≤ d.indent ∧ d.indent ≤ INT_MAX) :
    set_def_opts env (get_def_opts env d) d = (Exec.ret VALUE.Qnil, d) := by
  have h1 : set_def_opts_encoding env (get_def_opts env d) d = (Exec.ret (), d) := by
    unfold set_def_opts_encoding
    obtain ⟨k, l⟩ := get_def_opts_encoding env d
    cases hE : env.HAVE_RUBY_ENCODING_H
    · simp [Exec.done]
    · rw [k, hE, l hE]
      cases hc : d.encoding <;>
        simp [VALUE.is_nil, rb_type, rb_obj_class, rb_to_encoding, Exec.done, ← hc]
  have h2 : set_def_opts_indent (get_def_opts env d) d = (Exec.ret (), d) := by
    unfold set_def_opts_indent
    rw [get_def_opts_indent]
    simp [VALUE.is_nil, rb_type, int_is_fixable d.indent h, NUM2INT_value, NUM2INT, h, Exec.done]
  have h3 : set_def_opts_mode (get_def_opts env d) d = (Exec.ret (), d) := by
    unfold set_def_opts_mode
    rw [get_def_opts_mode]
    cases hm : d.mode <;>
      simp [mode_symbol, VALUE.is_nil, same_symbol, object_sym, strict_sym, compat_sym,
        null_sym, Exec.done, ← hm]
  have h4 : set_def_opts_ynos (get_def_opts env d) ynos d = (Exec.ret (), d) :=
    set_def_opts_ynos_read_back _ d ynos (fun o ho => (get_def_opts_yes_no env d o ho).2)
  unfold set_def_opts
  rw [if_neg (by simp [get_def_opts_type]), h1, andThen_ret, h2, andThen_ret, h3, andThen_ret,
    h4, andThen_ret]

/-- Claim C13 on defaults holding an encoding, the indent 4, tri-states in
each of the three states and the mode `NullMode`. -/
theorem set_def_opts_of_get_def_opts_witness :
    (INT_MIN ≤ mixed_defaults.indent ∧ mixed_defaults.indent ≤ INT_MAX) ∧
    set_def_opts ruby19 (get_def_opts ruby19 mixed_defaults) mixed_defaults =
      (Exec.ret VALUE.Qnil, mixed_defaults) :=
  ⟨by decide, set_def_opts_of_get_def_opts ruby19 mixed_defaults (by decide)⟩

/-! ### The walk of `mimic_walk` -/

mutual
/-- Unless a proc meets a build for Rubinius, and when there is a proc or a
block, `mimic_walk` returns having called it on the nodes in post-order. -/
theorem mimic_walk_trace (env : Env) (bg : Bool) (key proc : VALUE)
    (hR : env.RUBINIUS = false ∨ proc.is_nil = true)
    (hP : proc.is_nil = false ∨ bg = true) :
    ∀ (obj : VALUE) (tr : List Invoke),
      mimic_walk env bg key obj proc tr =
        (Exec.ret (), tr ++ (post_order obj).map (invoke proc))
  | VALUE.Hash c d tbl, tr => by
    unfold mimic_walk
    simp only []
    rw [rb_hash_foreach_trace env bg proc hR hP tbl tr]
    rcases hR with hR | hR <;> rcases hP with hP | hP <;> cases hp : proc.is_nil <;>
      simp_all [post_order, invoke]
  | VALUE.Array elts, tr => by
    unfold mimic_walk
    simp only []
    rw [mimic_walk_array_trace env bg proc hR hP elts tr]
    rcases hR with hR | hR <;> rcases hP with hP | hP <;> cases hp : proc.is_nil <;>
      simp_all [post_order, invoke]
  | VALUE.Qnil, tr => by
    unfold mimic_walk
    rcases hR with hR | hR <;> rcases hP with hP | hP <;> cases hp : proc.is_nil <;>
      simp_all [post_order, invoke, Exec.andThen]
  | VALUE.Qtrue, tr => by
    unfold mimic_walk
    rcases hR with hR | hR <;> rcases hP with hP | hP <;> cases hp : proc.is_nil <;>
      simp_all [post_order, invoke, Exec.andThen]
  | VALUE.Qfalse, tr => by
    unfold mimic_walk
    rcases hR with hR | hR <;> rcases hP with hP | hP <;> cases hp : proc.is_nil <;>
      simp_all [post_order, invoke, Exec.andThen]
  | VALUE.Integer _, tr => by
    unfold mimic_walk
    rcases hR with hR | hR <;> rcases hP with hP | hP <;> cases hp : proc.is_nil <;>
      simp_all [post_order, invoke, Exec.andThen]
  | VALUE.Symbol _, tr => by
    unfold mimic_walk
    rcases hR with hR | hR <;> rcases hP with hP | hP <;> cases hp : proc.is_nil <;>
      simp_all [post_order, invoke, Exec.andThen]
  | VALUE.String _ _, tr => by
    unfold mimic_walk
    rcases hR with hR | hR <;> rcases hP with hP | hP <;> cases hp : proc.is_nil <;>
      simp_all [post_order, invoke, Exec.andThen]
  | VALUE.Encoding _, tr => by
    unfold mimic_walk
    rcases hR with hR | hR <;> rcases hP with hP | hP <;> cases hp : proc.is_nil <;>
      simp_all [post_order, invoke, Exec.andThen]
  | VALUE.Object _, tr => by
    unfold mimic_walk
    rcases hR with hR | hR <;> rcases hP with hP | hP <;> cases hp : proc.is_nil <;>
      simp_all [post_order, invoke, Exec.andThen]
/-- The loop over the elements of an array calls on the nodes below them in
post-order. -/
theorem mimic_walk_array_trace (env : Env) (bg : Bool) (proc : VALUE)
    (hR : env.RUBINIUS = false ∨ proc.is_nil = true)
    (hP : proc.is_nil = false ∨ bg = true) :
    ∀ (np : List VALUE) (tr : List Invoke),
      mimic_walk_array env bg np proc tr =
        (Exec.ret (), tr ++ (post_order_elements np).map (invoke proc))
  | [], tr => by simp [mimic_walk_array, post_order_elements]
  | x :: rest, tr => by
    unfold mimic_walk_array
    rw [mimic_walk_trace env bg VALUE.Qnil proc hR hP x tr]
    simp only []
    rw [mimic_walk_array_trace env bg proc hR hP rest]
    simp [post_order_elements]
/-- The iteration over the entries of a hash calls on the nodes below its
values in post-order. -/
theorem rb_hash_foreach_trace (env : Env) (bg : Bool) (proc : VALUE)
    (hR : env.RUBINIUS = false ∨ proc.is_nil = true)
    (hP : proc.is_nil = false ∨ bg = true) :
    ∀ (tbl : List (VALUE × VALUE)) (tr : List Invoke),
      rb_hash_foreach_mimic_walk env bg tbl proc tr =
        (Exec.ret (), tr ++ (post_order_values tbl).map (invoke proc))
  | [], tr => by simp [rb_hash_foreach_mimic_walk, post_order_values]
  | (k, v) :: rest, tr => by
    unfold rb_hash_foreach_mimic_walk
    rw [mimic_walk_trace env bg k proc hR hP v tr]
    simp only []
    rw [rb_hash_foreach_trace env bg proc hR hP rest]
    simp [post_order_values]
end

/-- Below a child that exists, a position is looked up in the child. -/
theorem subtree_cons (parent c : VALUE) (i : Nat) (p : List Nat) (h : child parent i = some c) :
    subtree parent (i :: p) = subtree c p := by
  simp [subtree, h]

mutual
/-- The objects at the listed positions are the nodes in post-order. -/
theorem paths_subtree : ∀ obj : VALUE,
    (post_order_paths obj).map (subtree obj) = (post_order obj).map some
  | VALUE.Hash c d tbl => by
    have h := paths_values_subtree tbl 0 (VALUE.Hash c d tbl) (fun k => by simp [child])
    simp [post_order_paths, post_order, h, subtree]
  | VALUE.Array elts => by
    have h := paths_elements_subtree elts 0 (VALUE.Array elts) (fun k => by simp [child])
    simp [post_order_paths, post_order, h, subtree]
  | VALUE.Qnil => by simp [post_order_paths, post_order, subtree]
  | VALUE.Qtrue => by simp [post_order_paths, post_order, subtree]
  | VALUE.Qfalse => by simp [post_order_paths, post_order, subtree]
  | VALUE.Integer _ => by simp [post_order_paths, post_order, subtree]
  | VALUE.Symbol _ => by simp [post_order_paths, post_order, subtree]
  | VALUE.String _ _ => by simp [post_order_paths, post_order, subtree]
  | VALUE.Encoding _ => by simp [post_order_paths, post_order, subtree]
  | VALUE.Object _ => by simp [post_order_paths, post_order, subtree]
/-- The same below the elements of an array from index `i` on. -/
theorem paths_elements_subtree : ∀ (cs : List VALUE) (i : Nat) (parent : VALUE),
    (∀ k, child parent (i + k) = cs[k]?) →
    (paths_elements cs i).map (subtree parent) = (post_order_elements cs).map some
  | [], _, _, _ => by simp [paths_elements, post_order_elements]
  | x :: rest, i, parent, h => by
    have h0 : child parent i = some x := by simpa using h 0
    have hr := paths_elements_subtree rest (i + 1) parent (fun k => by
      have := h (k + 1)
      simpa [Nat.add_assoc, Nat.add_comm 1 k] using this)
    have hx := paths_subtree x
    simp only [paths_elements, post_order_elements, List.map_append, List.map_map, hr]
    congr 1
    rw [← hx]
    apply List.map_congr_left
    intro p _
    exact subtree_cons parent x i p h0
/-- The same below the values of a hash from entry `i` on. -/
theorem paths_values_subtree : ∀ (tbl : List (VALUE × VALUE)) (i : Nat) (parent : VALUE),
    (∀ k, child parent (i + k) = (tbl[k]?).map Prod.snd) →
    (paths_values tbl i).map (subtree parent) = (post_order_values tbl).map some
  | [], _, _, _ => by simp [paths_values, post_order_values]
  | (key, x) :: rest, i, parent, h => by
    have h0 : child parent i = some x := by simpa using h 0
    have hr := paths_values_subtree rest (i + 1) parent (fun k => by
      have := h (k + 1)
      simpa [Nat.add_assoc, Nat.add_comm 1 k] using this)
    have hx := paths_subtree x
    simp only [paths_values, post_order_values, List.map_append, List.map_map, hr]
    congr 1
    rw [← hx]
    apply List.map_congr_left
    intro p _
    exact subtree_cons parent x i p h0
end

/-- Below a child that does not exist there is no node. -/
theorem subtree_leaf_cons (obj : VALUE) (i : Nat) (p : List Nat) (h : child obj i = none) :
    subtree obj (i :: p) = none := by
  simp [subtree, h]

mutual
/-- The listed positions are exactly the positions of the nodes. -/
theorem mem_paths : ∀ (obj : VALUE) (p : List Nat),
    p ∈ post_order_paths obj ↔ (subtree obj p).isSome = true
  | VALUE.Hash c d tbl, [] => by simp [post_order_paths, subtree]
  | VALUE.Hash c d tbl, j :: p => by
    have h := mem_paths_values tbl 0 (j :: p)
    simp only [post_order_paths, List.mem_append, h, List.mem_singleton, reduceCtorEq, or_false,
      Nat.zero_add, List.cons.injEq]
    cases hc : tbl[j]? with
    | none =>
      rw [subtree_leaf_cons _ _ _ (by simp [child, hc])]
      simp only [Option.isSome_none, Bool.false_eq_true, iff_false]
      rintro ⟨k, x, q, hk, ⟨rfl, rfl⟩, _⟩
      simp [hc] at hk
    | some kv =>
      rw [subtree_cons _ kv.2 _ _ (by simp [child, hc])]
      constructor
      · rintro ⟨k, x, q, hk, ⟨rfl, rfl⟩, hs⟩
        simp only [hc, Option.map_some', Option.some.injEq] at hk
        rw [hk]
        exact hs
      · intro hs
        exact ⟨j, kv.2, p, by simp [hc], ⟨rfl, rfl⟩, hs⟩
  | VALUE.Array elts, [] => by simp [post_order_paths, subtree]
  | VALUE.Array elts, j :: p => by
    have h := mem_paths_elements elts 0 (j :: p)
    simp only [post_order_paths, List.mem_append, h, List.mem_singleton, reduceCtorEq, or_false,
      Nat.zero_add, List.cons.injEq]
    cases hc : elts[j]? with
    | none =>
      rw [subtree_leaf_cons _ _ _ (by simp [child, hc])]
      simp only [Option.isSome_none, Bool.false_eq_true, iff_false]
      rintro ⟨k, x, q, hk, ⟨rfl, rfl⟩, _⟩
      simp [hc] at hk
    | some c =>
      rw [subtree_cons _ c _ _ (by simp [child, hc])]
      constructor
      · rintro ⟨k, x, q, hk, ⟨rfl, rfl⟩, hs⟩
        simp only [hc, Option.some.injEq] at hk
        rw [hk]
        exact hs
      · intro hs
        exact ⟨j, c, p, hc, ⟨rfl, rfl⟩, hs⟩
  | VALUE.Qnil, p => by cases p <;> simp [post_order_paths, subtree, child]
  | VALUE.Qtrue, p => by cases p <;> simp [post_order_paths, subtree, child]
  | VALUE.Qfalse, p => by cases p <;> simp [post_order_paths, subtree, child]
  | VALUE.Integer _, p => by cases p <;> simp [post_order_paths, subtree, child]
  | VALUE.Symbol _, p => by cases p <;> simp [post_order_paths, subtree, child]
  | VALUE.String _ _, p => by cases p <;> simp [post_order_paths, subtree, child]
  | VALUE.Encoding _, p => by cases p <;> simp [post_order_paths, subtree, child]
  | VALUE.Object _, p => by cases p <;> simp [post_order_paths, subtree, child]
/-- The same below the elements of an array from index `i` on. -/
theorem mem_paths_elements : ∀ (cs : List VALUE) (i : Nat) (q : List Nat),
    q ∈ paths_elements cs i ↔
      ∃ k c p, cs[k]? = some c ∧ q = (i + k) :: p ∧ (subtree c p).isSome = true
  | [], i, q => by simp [paths_elements]
  | x :: rest, i, q => by
    have hx := mem_paths x
    have hr := mem_paths_elements rest (i + 1) q
    simp only [paths_elements, List.mem_append, List.mem_map, hr, hx]
    constructor
    · rintro (⟨p, hp, rfl⟩ | ⟨k, c, p, hk, rfl, hs⟩)
      · exact ⟨0, x, p, by simp, rfl, hp⟩
      · exact ⟨k + 1, c, p, by simpa using hk, by simp [Nat.add_assoc, Nat.add_comm 1 k], hs⟩
    · rintro ⟨k, c, p, hk, rfl, hs⟩
      cases k with
      | zero =>
        simp only [List.getElem?_cons_zero, Option.some.injEq] at hk
        subst hk
        exact Or.inl ⟨p, hs, rfl⟩
      | succ k =>
        exact Or.inr ⟨k, c, p, by simpa using hk, by simp [Nat.add_assoc, Nat.add_comm 1 k], hs⟩
/-- The same below the values of a hash from entry `i` on. -/
theorem mem_paths_values : ∀ (tbl : List (VALUE × VALUE)) (i : Nat) (q : List Nat),
    q ∈ paths_values tbl i ↔
      ∃ k c p, (tbl[k]?).map Prod.snd = some c ∧ q = (i + k) :: p ∧ (subtree c p).isSome = true
  | [], i, q => by simp [paths_values]
  | (key, x) :: rest, i, q => by
    have hx := mem_paths x
    have hr := mem_paths_values rest (i + 1) q
    simp only [paths_values, List.mem_append, List.mem_map, hr, hx]
    constructor
    · rintro (⟨p, hp, rfl⟩ | ⟨k, c, p, hk, rfl, hs⟩)
      · exact ⟨0, x, p, by simp, rfl, hp⟩
      · exact ⟨k + 1, c, p, by simpa using hk, by simp [Nat.add_assoc, Nat.add_comm 1 k], hs⟩
    · rintro ⟨k, c, p, hk, rfl, hs⟩
      cases k with
      | zero =>
        simp only [List.getElem?_cons_zero, Option.map_some', Option.some.injEq] at hk
        subst hk
        exact Or.inl ⟨p, hs, rfl⟩
      | succ k =>
        exact Or.inr ⟨k, c, p, by simpa using hk, by simp [Nat.add_assoc, Nat.add_comm 1 k], hs⟩
end

/-- The order of two positions below the same child is their order in it. -/
theorem post_before_cons (i : Nat) (p q : List Nat) (h : post_before p q) :
    post_before (i :: p) (i :: q) := Or.inr ⟨rfl, h⟩

mutual
/-- The positions are listed in the order of a post-order walk. -/
theorem paths_sorted : ∀ obj : VALUE, List.Pairwise post_before (post_order_paths obj)
  | VALUE.Hash c d tbl => by
    obtain ⟨h1, h2⟩ := paths_values_sorted tbl 0
    simp only [post_order_paths, List.pairwise_append, h1, List.pairwise_singleton,
      List.mem_singleton, true_and]
    rintro a ha b rfl
    obtain ⟨j, p, rfl, _⟩ := h2 a ha
    trivial
  | VALUE.Array elts => by
    obtain ⟨h1, h2⟩ := paths_elements_sorted elts 0
    simp only [post_order_paths, List.pairwise_append, h1, List.pairwise_singleton,
      List.mem_singleton, true_and]
    rintro a ha b rfl
    obtain ⟨j, p, rfl, _⟩ := h2 a ha
    trivial
  | VALUE.Qnil => by simp [post_order_paths]
  | VALUE.Qtrue => by simp [post_order_paths]
  | VALUE.Qfalse => by simp [post_order_paths]
  | VALUE.Integer _ => by simp [post_order_paths]
  | VALUE.Symbol _ => by simp [post_order_paths]
  | VALUE.String _ _ => by simp [post_order_paths]
  | VALUE.Encoding _ => by simp [post_order_paths]
  | VALUE.Object _ => by simp [post_order_paths]
/-- The same below the elements of an array from index `i` on. -/
theorem paths_elements_sorted : ∀ (cs : List VALUE) (i : Nat),
    List.Pairwise post_before (paths_elements cs i) ∧
    ∀ q ∈ paths_elements cs i, ∃ j p, q = j :: p ∧ i ≤ j
  | [], i => by simp [paths_elements]
  | x :: rest, i => by
    have hx := paths_sorted x
    obtain ⟨h1, h2⟩ := paths_elements_sorted rest (i + 1)
    constructor
    · simp only [paths_elements, List.pairwise_append, h1, true_and]
      refine ⟨List.Pairwise.map _ (fun p q h => post_before_cons i p q h) hx, ?_⟩
      intro a ha b hb
      obtain ⟨p, _, rfl⟩ := List.mem_map.1 ha
      obtain ⟨j, q, rfl, hj⟩ := h2 b hb
      exact Or.inl (by omega)
    · intro q hq
      simp only [paths_elements, List.mem_append, List.mem_map] at hq
      rcases hq with ⟨p, _, rfl⟩ | hq
      · exact ⟨i, p, rfl, Nat.le_refl i⟩
      · obtain ⟨j, p, rfl, hj⟩ := h2 q hq
        exact ⟨j, p, rfl, by omega⟩
/-- The same below the values of a hash from entry `i` on. -/
theorem paths_values_sorted : ∀ (tbl : List (VALUE × VALUE)) (i : Nat),
    List.Pairwise post_before (paths_values tbl i) ∧
    ∀ q ∈ paths_values tbl i, ∃ j p, q = j :: p ∧ i ≤ j
  | [], i => by simp [paths_values]
  | (key, x) :: rest, i => by
    have hx := paths_sorted x
    obtain ⟨h1, h2⟩ := paths_values_sorted rest (i + 1)
    constructor
    · simp only [paths_values, List.pairwise_append, h1, true_and]
      refine ⟨List.Pairwise.map _ (fun p q h => post_before_cons i p q h) hx, ?_⟩
      intro a ha b hb
      obtain ⟨p, _, rfl⟩ := List.mem_map.1 ha
      obtain ⟨j, q, rfl, hj⟩ := h2 b hb
      exact Or.inl (by omega)
    · intro q hq
      simp only [paths_values, List.mem_append, List.mem_map] at hq
      rcases hq with ⟨p, _, rfl⟩ | hq
      · exact ⟨i, p, rfl, Nat.le_refl i⟩
      · obtain ⟨j, p, rfl, hj⟩ := h2 q hq
        exact ⟨j, p, rfl, by omega⟩
end

/-- A proper descendant of a node comes before the node. -/
theorem post_before_descendant (q : List Nat) (i : Nat) (r : List Nat) :
    post_before (q ++ i :: r) q := by
  induction q with
  | nil => trivial
  | cons j q ih => exact Or.inr ⟨rfl, ih⟩

/-- Below the same node, what lies under a child of smaller index comes before
what lies under a child of larger index. -/
theorem post_before_sibling (r : List Nat) (i j : Nat) (p q : List Nat) (h : i < j) :
    post_before (r ++ i :: p) (r ++ j :: q) := by
  induction r with
  | nil => exact Or.inl h
  | cons k r ih => exact Or.inr ⟨rfl, ih⟩

/-- No position comes before itself. -/
theorem post_before_irrefl (p : List Nat) : ¬ post_before p p := by
  induction p with
  | nil => exact fun h => h
  | cons i p ih =>
    rintro (h | ⟨_, h⟩)
    · exact Nat.lt_irrefl i h
    · exact ih h

/-- The positions of the nodes are listed without repetition. -/
theorem paths_nodup (obj : VALUE) : (post_order_paths obj).Nodup := by
  refine List.Pairwise.imp ?_ (paths_sorted obj)
  intro p q h hpq
  subst hpq
  exact post_before_irrefl p h

/-- `mimic_recurse_proc` with a block yields the nodes in post-order and
returns `nil`. -/
theorem mimic_recurse_proc_trace (env : Env) (obj : VALUE) (tr : List Invoke) :
    mimic_recurse_proc env true obj tr =
      (Exec.ret VALUE.Qnil, tr ++ (post_order obj).map (invoke VALUE.Qnil)) := by
  unfold mimic_recurse_proc
  rw [mimic_walk_trace env true VALUE.Qnil VALUE.Qnil (Or.inr rfl) (Or.inr rfl) obj tr]
  rfl

/-- `mimic_load` with a document and a second argument walks what `load`
returned for the document. -/
theorem mimic_load_trace (env : Env) (oj_parse : List Byte → Options → Exec VALUE)
    (bg : Bool) (doc proc obj : VALUE) (d d2 : Options) (tr : List Invoke)
    (hR : env.RUBINIUS = false ∨ proc.is_nil = true)
    (hP : proc.is_nil = false ∨ bg = true)
    (hl : load env oj_parse [doc] d = (Exec.ret obj, d2)) :
    mimic_load env oj_parse bg [doc, proc] d tr =
      (Exec.ret obj, d2, tr ++ (post_order obj).map (invoke proc)) := by
  unfold mimic_load
  rw [show [doc, proc].take 1 = [doc] from rfl, hl]
  simp only []
  rw [show (if 2 ≤ [doc, proc].length then [doc, proc].getD 1 VALUE.Qnil else VALUE.Qnil)
    = proc from rfl, mimic_walk_trace env bg VALUE.Qnil proc hR hP obj tr]

/-- Claim C14 refuted.  On a build for Rubinius, `mimic_walk` with a proc
raises a NotImplementedError at the first node it comes to and calls the
proc on no node. -/
theorem mimic_walk_rubinius_counterexample :
    mimic_walk rubinius false VALUE.Qnil small_tree some_proc [] =
      (Exec.raise (Raise.rb_eNotImpError "Not supported in Rubinius.\n"), []) :=
  rfl

/-- Claim C14 as amended.  Unless the build is one for Rubinius and a proc is
given, and when a proc or a block is given, `mimic_walk` returns (it is
defined on every tree of hashes, arrays and leaves) having called the proc,
or yielded to the block, on the nodes of the tree in post-order, and so do
`mimic_load` on what `load` returned and `mimic_recurse_proc` with a block.
The nodes called on are those at the positions `post_order_paths` lists:
each position of a node (the root, an element of an array or a value of a
hash at any depth, never a key) exactly once, every descendant of a node
before the node and, below one node, the children in index order. -/
theorem mimic_walk_post_order (env : Env) (oj_parse : List Byte → Options → Exec VALUE)
    (bg : Bool) (key obj proc doc : VALUE) (d d2 : Options) (tr : List Invoke)
    (hR : env.RUBINIUS = false ∨ proc.is_nil = true)
    (hP : proc.is_nil = false ∨ bg = true) :
    mimic_walk env bg key obj proc tr =
      (Exec.ret (), tr ++ (post_order obj).map (invoke proc)) ∧
    (load env oj_parse [doc] d = (Exec.ret obj, d2) →
      mimic_load env oj_parse bg [doc, proc] d tr =
        (Exec.ret obj, d2, tr ++ (post_order obj).map (invoke proc))) ∧
    mimic_recurse_proc env true obj tr =
      (Exec.ret VALUE.Qnil, tr ++ (post_order obj).map (invoke VALUE.Qnil)) ∧
    (post_order_paths obj).map (subtree obj) = (post_order obj).map some ∧
    (∀ p, p ∈ post_order_paths obj ↔ (subtree obj p).isSome = true) ∧
    (post_order_paths obj).Nodup ∧
    List.Pairwise post_before (post_order_paths obj) ∧
    (∀ (q : List Nat) (i : Nat) (r : List Nat), post_before (q ++ i :: r) q) ∧
    (∀ (r : List Nat) (i j : Nat) (p q : List Nat), i < j →
      post_before (r ++ i :: p) (r ++ j :: q)) :=
  ⟨mimic_walk_trace env bg key proc hR hP obj tr,
   mimic_load_trace env oj_parse bg doc proc obj d d2 tr hR hP,
   mimic_recurse_proc_trace env obj tr,
   paths_subtree obj, mem_paths obj, paths_nodup obj, paths_sorted obj,
   post_before_descendant, post_before_sibling⟩

/-- Claim C14 as amended, on the tree of `[1, {"a": [true]}]` walked with a
proc: the calls are on 1, `true`, the inner array, the hash and the outer
array, in this order. -/
theorem mimic_walk_post_order_witness :
    (ruby19.RUBINIUS = false ∨ some_proc.is_nil = true) ∧
    (some_proc.is_nil = false ∨ false = true) ∧
    mimic_walk ruby19 false VALUE.Qnil small_tree some_proc [] =
      (Exec.ret (), [] ++ (post_order small_tree).map (invoke some_proc)) ∧
    post_order small_tree =
      [VALUE.Integer 1, VALUE.Qtrue, VALUE.Array [VALUE.Qtrue],
       hash_of [(VALUE.String [97] 1, VALUE.Array [VALUE.Qtrue])], small_tree] ∧
    post_order_paths small_tree = [[0], [1, 0, 0], [1, 0], [1], []] :=
  ⟨Or.inl rfl, Or.inl rfl,
   (mimic_walk_post_order ruby19 echo_parse false VALUE.Qnil small_tree some_proc
     (VALUE.String small_doc 1) started started [] (Or.inl rfl) (Or.inl rfl)).1,
   rfl, rfl⟩

end Oj
